import Mathlib

/-!
Verification development for the `obsidian-mcp` repository.

The two core subsystems are shallowly embedded from the Python sources:

* `src/src/wikilink_graph.py` — the bidirectional wikilink graph
  (`WikilinkGraph` with `add_note`, `remove_note`, `rebuild_from_notes`,
  `get_backlinks`, `get_outgoing_links`, `get_orphan_notes`,
  `get_broken_links`, `save`, `load`).
* `src/src/retriever.py` — the hybrid retriever (`_tokenize`,
  `ensure_bm25_index`, `_build_where_filter`, `_match_where`,
  `_bm25_search`, `_reciprocal_rank_fusion`).

Python `dict`s are embedded as association lists (`List (String × β)`) with
dict-assignment semantics: assigning to an existing key updates it in place
(keeping its position, as Python dicts do), assigning a fresh key appends it.
Python `set`s of strings are embedded as duplicate-free `List String` in
insertion order; only membership, iteration and `sorted` are observed by the
code.  Python floats are idealized as exact rationals (`ℚ`); Python `int`
rank/`k` parameters, which are nonnegative at every call site, are embedded
as `ℕ`.  `str.lower()` is embedded as character-wise `Char.toLower` (exact on the ASCII
texts exercised here).
-/

namespace ObsidianMCP

/-! ### Python `dict` / `set` primitives -/

/-- First binding of key `k` in an association list (Python `d[k]` /
`d.get(k)`; the lists built here are duplicate-key free, as Python dicts
are). -/
def mapLookup {β : Type} (m : List (String × β)) (k : String) : Option β :=
  (m.find? (fun p => p.1 = k)).map (fun p => p.2)

/-- Python `d.get(k, default)`. -/
def lookupD {β : Type} (m : List (String × β)) (k : String) (d : β) : β :=
  (mapLookup m k).getD d

/-- Python dict assignment `d[k] = v`: update in place if `k` is bound
(keeping its position), else append a new binding. -/
def mapSet {β : Type} (m : List (String × β)) (k : String) (v : β) :
    List (String × β) :=
  if m.any (fun p => p.1 = k) then
    m.map (fun p => if p.1 = k then (k, v) else p)
  else
    m ++ [(k, v)]

/-- Python `d.pop(k, None)`: drop every binding of `k`. -/
def mapPop {β : Type} (m : List (String × β)) (k : String) :
    List (String × β) :=
  m.filter (fun p => p.1 ≠ k)

/-- Python `s.add(x)` on a set represented as a duplicate-free list in
insertion order. -/
def setAdd (s : List String) (x : String) : List String :=
  if x ∈ s then s else s ++ [x]

/-- Python `s.discard(x)`. -/
def setDiscard (s : List String) (x : String) : List String :=
  s.filter (fun y => y ≠ x)

/-- `defaultdict(set)` access plus `add`: `d[k].add(x)` (creates the entry
when absent, like Python's `defaultdict`). -/
def mapAddTo (m : List (String × List String)) (k x : String) :
    List (String × List String) :=
  mapSet m k (setAdd (lookupD m k []) x)

/-- `defaultdict(set)` access plus `discard`: `d[k].discard(x)` (creates an
empty entry when absent, like Python's `defaultdict`). -/
def mapDiscardFrom (m : List (String × List String)) (k x : String) :
    List (String × List String) :=
  mapSet m k (setDiscard (lookupD m k []) x)

/-- Python `set(xs)` restricted to its observable iteration content:
duplicates removed, first occurrence kept. -/
def pySetOfList (xs : List String) : List String :=
  xs.foldl (fun acc x => if x ∈ acc then acc else acc ++ [x]) []

/-! ### Python stable sort

Python's `sorted` is a stable sort; `sorted(..., reverse=True)` is a stable
descending sort.  Any two stable sorts agree, so `sorted` is embedded as a
stable insertion sort: `stableInsert le x l` places `x` before the first
element `y` of `l` with `le x y = true` (so with `le x y := key y ≤ key x`
the result is stable descending, with `le x y := key x ≤ key y` stable
ascending). -/

def stableInsert {α : Type} (le : α → α → Bool) (x : α) : List α → List α
  | [] => [x]
  | y :: ys => if le x y then x :: y :: ys else y :: stableInsert le x ys

def stableSort {α : Type} (le : α → α → Bool) : List α → List α
  | [] => []
  | x :: xs => stableInsert le x (stableSort le xs)

/-- Python string `<=`: lexicographic comparison by code points. -/
def strLeB : List Char → List Char → Bool
  | [], _ => true
  | _ :: _, [] => false
  | a :: as, b :: bs =>
    if a.toNat < b.toNat then true
    else if b.toNat < a.toNat then false
    else strLeB as bs

def pyStrLe (a b : String) : Bool := strLeB a.data b.data

/-- Python `sorted` on a list of strings (ascending, by code points). -/
def sortStrings (l : List String) : List String :=
  stableSort pyStrLe l

/-- Python `str.lower()` (character-wise; ASCII-exact). -/
def pyLower (s : String) : String :=
  String.mk (s.data.map Char.toLower)

/-- Python `str.replace(old, new)` for a single-character pattern. -/
def pyReplaceChar (s : String) (a b : Char) : String :=
  String.mk (s.data.map (fun c => if c = a then b else c))

/-! ### `WikilinkGraph` (src/src/wikilink_graph.py) -/

/-- State of `WikilinkGraph`: `outgoing`/`incoming` are
`defaultdict(set)`s, `title_to_path` a plain dict. -/
structure WikilinkGraph where
  outgoing : List (String × List String)
  incoming : List (String × List String)
  title_to_path : List (String × String)
  deriving Repr, DecidableEq

/-- `WikilinkGraph.__init__`. -/
def emptyGraph : WikilinkGraph := ⟨[], [], []⟩

/-- `WikilinkGraph._normalize_path`: strip a trailing `.md`, turn
backslashes into forward slashes. -/
def normalizePath (path : String) : String :=
  let p := if path.endsWith ".md" then path.dropRight 3 else path
  pyReplaceChar p '\\' '/'

/-- `WikilinkGraph._resolve_link` reads only `title_to_path`; factored over
that map. -/
def resolveTitle (title_to_path : List (String × String)) (link : String) :
    String :=
  let normalized := normalizePath link
  match mapLookup title_to_path (pyLower normalized) with
  | some p => p
  | none => normalized

/-- `WikilinkGraph._resolve_link`. -/
def resolveLink (g : WikilinkGraph) (link : String) : String :=
  resolveTitle g.title_to_path link

/-- One iteration of the `for link in wikilinks` loop of `add_note`:
resolve the link (against the current `title_to_path`) and record the edge
in both adjacency maps. -/
def addLinksStep (note_key : String) (gg : WikilinkGraph) (link : String) :
    WikilinkGraph :=
  let target := resolveTitle gg.title_to_path link
  ⟨mapAddTo gg.outgoing note_key target,
   mapAddTo gg.incoming target note_key,
   gg.title_to_path⟩

/-- `WikilinkGraph.add_note`.  The Python method updates `title_to_path`
first, then resets the note's outgoing set (discarding the note from each
previous target's incoming set), then resolves and inserts each wikilink. -/
def addNote (g : WikilinkGraph) (note_path title : String)
    (wikilinks : List String) : WikilinkGraph :=
  let note_key := normalizePath note_path
  let t1 := mapSet g.title_to_path (pyLower title) note_key
  let t2 := mapSet t1 (pyLower note_key) note_key
  let old_links := lookupD g.outgoing note_key []
  let inc1 := old_links.foldl (fun m tgt => mapDiscardFrom m tgt note_key)
    g.incoming
  let out1 := mapSet g.outgoing note_key []
  wikilinks.foldl (addLinksStep note_key) ⟨out1, inc1, t2⟩

/-- `WikilinkGraph.remove_note`.  The second loop iterates the *current*
`incoming.get(note_key, [])`, i.e. after the first loop's discards. -/
def removeNote (g : WikilinkGraph) (note_path : String) : WikilinkGraph :=
  let note_key := normalizePath note_path
  let inc1 := (lookupD g.outgoing note_key []).foldl
    (fun m tgt => mapDiscardFrom m tgt note_key) g.incoming
  let out1 := (lookupD inc1 note_key []).foldl
    (fun m src => mapDiscardFrom m src note_key) g.outgoing
  ⟨mapPop out1 note_key, mapPop inc1 note_key, g.title_to_path⟩

/-- Parsed-note record handed to `rebuild_from_notes`: a Python dict read
with `note.get('vault_path', note.get('path', ''))`, `note.get('title', '')`
and `note.get('wikilinks', [])`. -/
structure NoteRec where
  vault_path : Option String := none
  path : Option String := none
  title : Option String := none
  wikilinks : Option (List String) := none
  deriving Repr, DecidableEq

def NoteRec.vaultPath (n : NoteRec) : String :=
  n.vault_path.getD (n.path.getD "")

def NoteRec.theTitle (n : NoteRec) : String := n.title.getD ""

def NoteRec.links (n : NoteRec) : List String := n.wikilinks.getD []

/-- `WikilinkGraph.rebuild_from_notes`: clear all three structures, then
`add_note` for every record. -/
def rebuildFromNotes (_g : WikilinkGraph) (notes : List NoteRec) :
    WikilinkGraph :=
  notes.foldl (fun gg n => addNote gg n.vaultPath n.theTitle n.links)
    emptyGraph

/-- `WikilinkGraph.get_backlinks`. -/
def getBacklinks (g : WikilinkGraph) (note_path : String) : List String :=
  sortStrings (lookupD g.incoming (resolveLink g note_path) [])

/-- `WikilinkGraph.get_outgoing_links`. -/
def getOutgoingLinks (g : WikilinkGraph) (note_path : String) :
    List String :=
  sortStrings (lookupD g.outgoing (normalizePath note_path) [])

/-- `WikilinkGraph.get_orphan_notes`: notes (keys of `outgoing`) whose
incoming set is absent or empty, sorted.  (`all_notes` is a Python set of
the keys; the `linked_notes` accumulation in the source is dead code.) -/
def getOrphanNotes (g : WikilinkGraph) : List String :=
  sortStrings ((pySetOfList (g.outgoing.map (fun p => p.1))).filter
    (fun n => (lookupD g.incoming n []).isEmpty))

/-- `WikilinkGraph.get_broken_links`: `(source, target)` pairs whose target
is not a key of `outgoing`, in dict/set iteration order, unsorted. -/
def getBrokenLinks (g : WikilinkGraph) : List (String × String) :=
  let all_notes := g.outgoing.map (fun p => p.1)
  g.outgoing.flatMap (fun p =>
    (p.2.filter (fun t => ¬ (t ∈ all_notes))).map (fun t => (p.1, t)))

/-! ### Graph persistence (`save` / `load`)

The JSON layer is embedded as a value tree; `load`'s
`json.loads(Path(path).read_text())` is abstracted as an `Option JValue`
argument, `none` standing for a missing file or syntactically invalid JSON
(the exception is raised before any state mutation). -/

inductive JValue where
  | str (s : String)
  | num (n : Int)
  | bool (b : Bool)
  | null
  | arr (xs : List JValue)
  | obj (fields : List (String × JValue))

/-- `WikilinkGraph.save`: the serialized snapshot. -/
def saveJson (g : WikilinkGraph) : JValue :=
  .obj [("outgoing",
          .obj (g.outgoing.map (fun p => (p.1, .arr (p.2.map .str))))),
        ("incoming",
          .obj (g.incoming.map (fun p => (p.1, .arr (p.2.map .str))))),
        ("title_to_path",
          .obj (g.title_to_path.map (fun p => (p.1, .str p.2))))]

/-- Dict lookup among the fields of a parsed JSON object (`json.loads`
yields duplicate-key-free dicts). -/
def jFieldLookup (fields : List (String × JValue)) (k : String) :
    Option JValue :=
  (fields.find? (fun p => p.1 = k)).map (fun p => p.2)

/-- `data.get(k, default)`: raises (`none`) when `data` is not a dict. -/
def jGetD (data : JValue) (k : String) (d : JValue) : Option JValue :=
  match data with
  | .obj fields => some ((jFieldLookup fields k).getD d)
  | _ => none

/-- `.items()`: raises (`none`) unless the value is a dict. -/
def jItems (v : JValue) : Option (List (String × JValue)) :=
  match v with
  | .obj fields => some fields
  | _ => none

/-- Python `set(v)` on a JSON value: a list of strings or a string (set of
its characters) or a dict (set of its keys) is iterable; numbers, booleans
and `null` raise `TypeError`.  The graph's maps are string-valued, so array
elements that are not strings (which Python would accept into a
heterogeneous set; they never occur in a saved snapshot) are also treated
as a failed load. -/
def jStrOf : JValue → Option String
  | .str s => some s
  | _ => none

/-- All-strings reading of a JSON array (fails at the first non-string). -/
def jStrList : List JValue → Option (List String)
  | [] => some []
  | v :: vs =>
    match jStrOf v, jStrList vs with
    | some s, some rest => some (s :: rest)
    | _, _ => none

def pySet (v : JValue) : Option (List String) :=
  match v with
  | .arr xs => (jStrList xs).map pySetOfList
  | .str s => some (pySetOfList (s.toList.map (fun c => String.mk [c])))
  | .obj fields => some (pySetOfList (fields.map (fun p => p.1)))
  | _ => none

/-- The `for k, v in ….items(): self.d[k] = set(v)` loop of `load`; on a
`set(v)` failure the assignments made so far are kept. -/
def loadPairs (acc : List (String × List String)) :
    List (String × JValue) → (List (String × List String)) × Bool
  | [] => (acc, true)
  | (k, v) :: rest =>
    match pySet v with
    | some s => loadPairs (mapSet acc k s) rest
    | none => (acc, false)

/-- String-valued fields of a JSON object, for
`self.title_to_path = data.get('title_to_path', {})`.  (Python would store
a non-dict or non-string values verbatim in the attribute; such values
cannot inhabit the string-typed map and never occur in a saved snapshot.) -/
def jStrPairs (v : JValue) : List (String × String) :=
  match v with
  | .obj fields => fields.filterMap (fun p => match p.2 with
      | .str s => some (p.1, s)
      | _ => none)
  | _ => []

/-- `WikilinkGraph.load`.  Mirrors the Python statement order: `outgoing`
is reset *before* `data.get('outgoing', {})` is evaluated, so a failure
after that point leaves a partially replaced graph. -/
def loadJson (g : WikilinkGraph) (file : Option JValue) :
    WikilinkGraph × Bool :=
  match file with
  | none => (g, false)
  | some data =>
    let g1 : WikilinkGraph := { g with outgoing := [] }
    match jGetD data "outgoing" (.obj []) with
    | none => (g1, false)
    | some v1 =>
      match jItems v1 with
      | none => (g1, false)
      | some ofs =>
        match loadPairs [] ofs with
        | (acc, false) => ({ g1 with outgoing := acc }, false)
        | (out1, true) =>
          let g2 : WikilinkGraph :=
            { g1 with outgoing := out1, incoming := [] }
          match jGetD data "incoming" (.obj []) with
          | none => (g2, false)
          | some v2 =>
            match jItems v2 with
            | none => (g2, false)
            | some ifs =>
              match loadPairs [] ifs with
              | (acc, false) => ({ g2 with incoming := acc }, false)
              | (inc1, true) =>
                match jGetD data "title_to_path" (.obj []) with
                | none => (g2, false)
                | some v3 =>
                  let g3 : WikilinkGraph :=
                    ⟨g2.outgoing, inc1, jStrPairs v3⟩
                  (g3, true)

/-! ### `ObsidianRetriever` (src/src/retriever.py) -/

/-- `ObsidianRetriever._tokenize`: lowercase, split on non-alphanumeric
characters, keep tokens of length `> 2`.  (`str.isalnum` embedded as
`Char.isAlphanum`; exact on ASCII text.) -/
def tokenize (text : String) : List String :=
  let step := fun (st : List String × List Char) (c : Char) =>
    if c.isAlphanum then (st.1, st.2 ++ [c])
    else if st.2.isEmpty then st else (st.1 ++ [String.mk st.2], [])
  let st := (pyLower text).toList.foldl step ([], [])
  let tokens := if st.2.isEmpty then st.1 else st.1 ++ [String.mk st.2]
  tokens.filter (fun t => t.length > 2)

/-- Leaf condition of a ChromaDB-style `where` dict: either
`{"$contains": s}` or a direct equality value. -/
inductive WCond where
  | contains (s : String)
  | eqv (v : String)

/-- `where` filter expression: `{"$and": [...]}`, `{"$or": [...]}`, or a
dict of key/condition pairs. -/
inductive Where where
  | wand (cs : List Where)
  | wor (cs : List Where)
  | leaf (conds : List (String × WCond))

/-- Python `needle in haystack` on strings (substring containment). -/
def strContains (haystack needle : String) : Bool :=
  decide (List.IsInfix needle.data haystack.data)

/-- `metadata.get(key, "")` (metadata values are strings here, so the
`str(value)` coercion in the source is the identity). -/
def attrLookup (meta : List (String × String)) (key : String) : String :=
  lookupD meta key ""

/-- One key/condition pair of the leaf loop of `_match_where`. -/
def evalCond (meta : List (String × String)) : String × WCond → Bool
  | (key, .contains s) => strContains (attrLookup meta key) s
  | (key, .eqv v) => attrLookup meta key = v

mutual

/-- Body of `ObsidianRetriever._match_where` on a non-`None` filter: the
`if not where or not metadata: return True` guard is re-evaluated at every
recursive call (the metadata argument never changes, the nested dicts built
by `_build_where_filter` are never falsy). -/
def matchWhereW (meta : List (String × String)) : Where → Bool
  | .wand cs => if meta.isEmpty then true else matchAllW meta cs
  | .wor cs => if meta.isEmpty then true else matchAnyW meta cs
  | .leaf conds =>
    if meta.isEmpty then true
    else conds.all (fun c => evalCond meta c)

/-- `all(self._match_where(metadata, c) for c in where["$and"])`. -/
def matchAllW (meta : List (String × String)) : List Where → Bool
  | [] => true
  | c :: cs => matchWhereW meta c && matchAllW meta cs

/-- `any(self._match_where(metadata, c) for c in where["$or"])`. -/
def matchAnyW (meta : List (String × String)) : List Where → Bool
  | [] => false
  | c :: cs => matchWhereW meta c || matchAnyW meta cs

end

/-- `ObsidianRetriever._match_where`; `none` is Python `None`. -/
def matchWhere (meta : List (String × String)) : Option Where → Bool
  | none => true
  | some w => matchWhereW meta w

/-- `ObsidianRetriever._build_where_filter`: Python truthiness makes an
empty folder string or an empty tag list contribute no condition. -/
def buildWhereFilter (folder : Option String) (tags : Option (List String)) :
    Option Where :=
  let folderConds : List Where :=
    match folder with
    | some f => if f = "" then [] else [.leaf [("vault_path", .contains f)]]
    | none => []
  let tagConds : List Where :=
    match tags with
    | some ts => ts.map (fun t => .leaf [("tags", .contains t)])
    | none => []
  match folderConds ++ tagConds with
  | [] => none
  | [c] => some c
  | cs => some (.wand cs)

/-- The `eligible` list of `_bm25_search`: every local index when no
filter is given, otherwise the indices of the metadata entries matching
the `where` filter. -/
def bm25Eligible (scores : List ℚ)
    (metadatas : List (List (String × String))) (whereF : Option Where) :
    List ℕ :=
  match whereF with
  | none => List.range scores.length
  | some w => (metadatas.enum.filterMap (fun p =>
      if matchWhereW p.2 w then some p.1 else none))

/-- `ObsidianRetriever._bm25_search`.  The BM25 scores come from the
external `rank_bm25` library; the claim concerns the selection mechanics,
so the already-computed per-document score list stands in for
`self.bm25.get_scores(tokenized_query)` (with `bm25 = None` as `none`).
`np.argsort` (ascending; stable on these inputs — NumPy's default sort is
insertion sort below 16 elements) followed by `[::-1]` and `[:top_n]` is
embedded as a stable ascending sort of `(local index, score)` pairs,
reversed, truncated. -/
def bm25Search (bm25scores : Option (List ℚ)) (ids : List String)
    (metadatas : List (List (String × String))) (top_n : ℕ)
    (whereF : Option Where) : List (String × ℚ × ℕ) :=
  match bm25scores with
  | none => []
  | some scores =>
    let eligible : List ℕ := bm25Eligible scores metadatas whereF
    if eligible.isEmpty then []
    else
      let scores_arr := eligible.map (fun i => scores.getD i 0)
      let sortedAsc := stableSort
        (fun a b => a.2 ≤ b.2) scores_arr.enum
      let top := (sortedAsc.reverse).take top_n
      top.enum.map (fun p =>
        (ids.getD (eligible.getD p.2.1 0) "", p.2.2, p.1))

/-- BM25 index state of `ObsidianRetriever`: the built index (tokenized
corpus, `None` before any build) and the `_bm25_building` flag; a build
counter instruments "one underlying build execution" (each run of
`_build_bm25_index` increments it). -/
structure RetrieverState where
  bm25 : Option (List (List String))
  building : Bool
  buildCount : ℕ
  deriving Repr, DecidableEq

/-- `ObsidianRetriever.ensure_bm25_index(background=False)` as one atomic
step on the index state: every decision (`bm25` fast path, `_bm25_building`
check, flag flip) is taken under `self._bm25_lock`, and a blocking call
runs `build_worker` to completion before returning, so the call is a
function of the state it observes.  `docs` stands for the documents
`_build_bm25_index` fetches from the collection; with no documents the
build leaves `bm25` as `None` and the call returns
`self.bm25 is not None = False`.  A pre-state with `building = true`
represents another in-progress build (e.g. a background thread). -/
def ensureBm25Blocking (s : RetrieverState) (docs : List String) :
    RetrieverState × Bool :=
  if s.bm25.isSome then (s, true)
  else if s.building then (s, false)
  else
    let newIndex : Option (List (List String)) :=
      if docs.isEmpty then s.bm25 else some (docs.map tokenize)
    (⟨newIndex, false, s.buildCount + 1⟩, newIndex.isSome)

/-- Per-identity accumulator entry of `_reciprocal_rank_fusion`
(`defaultdict(lambda: {'bm25': 0, 'semantic': 0})`; the `*_raw` keys are
read back with `.get(…, 0)`, so a missing key and `0` coincide). -/
structure ScoreEntry where
  bm25 : ℚ := 0
  semantic : ℚ := 0
  bm25_raw : ℚ := 0
  semantic_raw : ℚ := 0
  deriving Repr, DecidableEq

/-- `scores[doc_id][…] = …` on the accumulator dict: update the entry in
place, creating the defaulted entry first when absent. -/
def upsertScore (m : List (String × ScoreEntry)) (id : String)
    (f : ScoreEntry → ScoreEntry) : List (String × ScoreEntry) :=
  mapSet m id (f (lookupD m id {}))

/-- The accumulator dict after both contribution loops of
`_reciprocal_rank_fusion` (BM25 loop first, then semantic, matching the
dict's insertion order). -/
def scoresAccum (bm25_results semantic_results : List (String × ℚ × ℕ))
    (k : ℕ) : List (String × ScoreEntry) :=
  let s1 := bm25_results.foldl (fun m r =>
    upsertScore m r.1 (fun e =>
      { e with bm25 := 1 / ((k : ℚ) + r.2.2 + 1), bm25_raw := r.2.1 })) []
  semantic_results.foldl (fun m r =>
    upsertScore m r.1 (fun e =>
      { e with semantic := 1 / ((k : ℚ) + r.2.2 + 1),
               semantic_raw := r.2.1 })) s1

/-- `scores[doc_id]['combined']`. -/
def combinedScore (alpha : ℚ) (e : ScoreEntry) : ℚ :=
  alpha * e.semantic + (1 - alpha) * e.bm25

/-- One entry of the fused result list (`id`, resolved `text`, combined
`score` and the raw sub-scores; the metadata dict rides along with the text
and is not modelled separately). -/
structure Fused where
  id : String
  text : String
  score : ℚ
  bm25_score : ℚ
  semantic_score : ℚ
  deriving Repr, DecidableEq

/-- Text resolution of the final loop: the semantic-search `payload` dict
first, then the corpus (`_id_to_idx` into `self.docs`); an identity with no
text anywhere is dropped (`continue`). -/
def resolveText (payload corpus : List (String × String)) (id : String) :
    Option String :=
  match mapLookup payload id with
  | some t => some t
  | none => mapLookup corpus id

/-- `ObsidianRetriever._reciprocal_rank_fusion`.  Inputs are the two ranked
candidate lists of `(doc_id, raw_score, rank)` triples; `alpha` weights the
semantic side; Python's stable `sorted(…, key=combined, reverse=True)` is
the stable descending sort. -/
def rrfFusion (bm25_results semantic_results : List (String × ℚ × ℕ))
    (alpha : ℚ) (k : ℕ) (payload corpus : List (String × String)) :
    List Fused :=
  let scores := scoresAccum bm25_results semantic_results k
  let sorted := stableSort (fun a b =>
    combinedScore alpha b.2 ≤ combinedScore alpha a.2) scores
  sorted.filterMap (fun p =>
    match resolveText payload corpus p.1 with
    | some text => some ⟨p.1, text, combinedScore alpha p.2,
        p.2.bm25_raw, p.2.semantic_raw⟩
    | none => none)

/-- Contribution of a ranked list to an identity: `1 / (k + rank + 1)` for
its (unique) entry, `0` when absent. -/
def contribOf (results : List (String × ℚ × ℕ)) (k : ℕ) (id : String) :
    ℚ :=
  match results.find? (fun r => r.1 = id) with
  | some r => 1 / ((k : ℚ) + r.2.2 + 1)
  | none => 0

/-! ### Lemmas about the dict/set primitives -/

theorem mapLookup_nil {β : Type} (a : String) :
    mapLookup ([] : List (String × β)) a = none := rfl

theorem mapLookup_cons {β : Type} (q : String × β) (m : List (String × β))
    (a : String) :
    mapLookup (q :: m) a = if q.1 = a then some q.2 else mapLookup m a := by
  by_cases h : q.1 = a
  · simp [mapLookup, List.find?_cons_of_pos, h]
  · simp [mapLookup, List.find?_cons_of_neg, h]

theorem mapLookup_map_overwrite {β : Type} (m : List (String × β))
    (k a : String) (v : β) :
    mapLookup (m.map (fun p => if p.1 = k then (k, v) else p)) a =
      if a = k then (if m.any (fun p => p.1 = k) then some v else none)
      else mapLookup m a := by
  induction m with
  | nil => by_cases ha : a = k <;> simp [mapLookup, ha]
  | cons p m ih =>
    by_cases hp : p.1 = k
    · by_cases ha : a = k
      · subst ha
        simp [mapLookup_cons, hp, List.any_cons]
      · have hka : ¬ (k = a) := fun h => ha h.symm
        have hpa : ¬ (p.1 = a) := by rw [hp]; exact hka
        simp [mapLookup_cons, hp, ha, hka, hpa, ih]
    · by_cases ha : a = k
      · subst ha
        have hLHS : mapLookup
            (List.map (fun q => if q.1 = a then (a, v) else q) (p :: m)) a =
            mapLookup
              (List.map (fun q => if q.1 = a then (a, v) else q) m) a := by
          rw [List.map_cons, if_neg hp, mapLookup_cons, if_neg hp]
        rw [hLHS, ih, List.any_cons, if_pos rfl, if_pos rfl]
        cases hany : m.any (fun q => q.1 = a) with
        | false => simp [hany, hp]
        | true => simp [hany]
      · by_cases hpa : p.1 = a
        · simp [mapLookup_cons, hp, hpa, ha]
        · simp [mapLookup_cons, hp, hpa, ha, ih]

theorem mapLookup_append {β : Type} (m₁ m₂ : List (String × β))
    (a : String) :
    mapLookup (m₁ ++ m₂) a =
      match mapLookup m₁ a with
      | some w => some w
      | none => mapLookup m₂ a := by
  induction m₁ with
  | nil => simp [mapLookup]
  | cons p m ih =>
    by_cases hpa : p.1 = a <;>
      simp [mapLookup_cons, hpa, ih]

theorem mapLookup_eq_none {β : Type}
    (m : List (String × β)) (k : String)
    (h : ∀ p ∈ m, ¬ p.1 = k) : mapLookup m k = none := by
  induction m with
  | nil => rfl
  | cons p m ih =>
    have hp : ¬ (p.1 = k) := h p (List.mem_cons_self p m)
    rw [mapLookup_cons, if_neg hp]
    exact ih (fun q hq => h q (List.mem_cons_of_mem p hq))

/-- Dict-assignment lookup: `mapSet` behaves as pointwise update. -/
theorem mapLookup_mapSet {β : Type} (m : List (String × β)) (k a : String)
    (v : β) :
    mapLookup (mapSet m k v) a = if a = k then some v else mapLookup m a := by
  unfold mapSet
  by_cases hb : m.any (fun p => p.1 = k)
  · rw [if_pos hb, mapLookup_map_overwrite, hb]
    split <;> rfl
  · rw [if_neg hb, mapLookup_append]
    have hnone : mapLookup m k = none := by
      apply mapLookup_eq_none
      intro p hp hpk
      exact hb (List.any_eq_true.mpr ⟨p, hp, by simp [hpk]⟩)
    by_cases ha : a = k
    · subst ha
      rw [hnone]
      simp [mapLookup_cons]
    · have hka : ¬ (k = a) := fun h => ha h.symm
      cases h : mapLookup m a <;>
        simp [mapLookup_cons, hka, ha, mapLookup_nil]

theorem lookupD_mapSet {β : Type} (m : List (String × β)) (k a : String)
    (v d : β) :
    lookupD (mapSet m k v) a d = if a = k then v else lookupD m a d := by
  unfold lookupD
  rw [mapLookup_mapSet]
  split <;> rfl

theorem mapLookup_mapPop {β : Type} (m : List (String × β)) (k a : String) :
    mapLookup (mapPop m k) a = if a = k then none else mapLookup m a := by
  induction m with
  | nil => simp [mapPop, mapLookup]
  | cons p m ih =>
    by_cases hp : p.1 = k
    · rw [show mapPop (p :: m) k = mapPop m k from by simp [mapPop, hp]]
      by_cases ha : a = k
      · simpa [ha] using ih
      · have hpa : ¬ (p.1 = a) := by rw [hp]; exact fun h => ha h.symm
        rw [ih, mapLookup_cons]
        simp [hpa, ha]
    · rw [show mapPop (p :: m) k = p :: mapPop m k from by
        simp [mapPop, hp]]
      rw [mapLookup_cons, ih, mapLookup_cons]
      by_cases ha : a = k
      · have hpa : ¬ (p.1 = a) := fun h => hp (h.trans ha)
        simp [ha, hpa, hp]
      · simp [ha]

theorem lookupD_mapPop (m : List (String × List String)) (k a : String) :
    lookupD (mapPop m k) a [] = if a = k then [] else lookupD m a [] := by
  unfold lookupD
  rw [mapLookup_mapPop]
  split <;> rfl

theorem mem_setAdd (s : List String) (x y : String) :
    y ∈ setAdd s x ↔ y = x ∨ y ∈ s := by
  unfold setAdd
  by_cases h : x ∈ s
  · simp only [if_pos h]
    constructor
    · exact fun hy => Or.inr hy
    · rintro (rfl | hy)
      · exact h
      · exact hy
  · simp [if_neg h, List.mem_append, or_comm]

theorem mem_setDiscard (s : List String) (x y : String) :
    y ∈ setDiscard s x ↔ y ∈ s ∧ y ≠ x := by
  simp [setDiscard, List.mem_filter]

theorem mem_lookupD_mapAddTo (m : List (String × List String))
    (k x a y : String) :
    y ∈ lookupD (mapAddTo m k x) a [] ↔
      if a = k then (y = x ∨ y ∈ lookupD m k []) else y ∈ lookupD m a [] := by
  unfold mapAddTo
  rw [lookupD_mapSet]
  split
  · exact mem_setAdd _ _ _
  · exact Iff.rfl

theorem mem_lookupD_mapDiscardFrom (m : List (String × List String))
    (k x a y : String) :
    y ∈ lookupD (mapDiscardFrom m k x) a [] ↔
      if a = k then (y ∈ lookupD m k [] ∧ y ≠ x)
      else y ∈ lookupD m a [] := by
  unfold mapDiscardFrom
  rw [lookupD_mapSet]
  split
  · exact mem_setDiscard _ _ _
  · exact Iff.rfl

/-- Membership after the `for t in ts: d[t].discard(x)` loop. -/
theorem mem_lookupD_foldDiscard (ts : List String)
    (m : List (String × List String)) (x a y : String) :
    y ∈ lookupD (ts.foldl (fun m t => mapDiscardFrom m t x) m) a [] ↔
      (y ∈ lookupD m a [] ∧ ¬ (y = x ∧ a ∈ ts)) := by
  induction ts generalizing m with
  | nil => simp
  | cons t ts ih =>
    rw [List.foldl_cons, ih, mem_lookupD_mapDiscardFrom]
    by_cases hat : a = t
    · subst hat
      simp only [eq_self_iff_true, if_true, List.mem_cons]
      tauto
    · simp only [if_neg hat, List.mem_cons]
      tauto

/-- Membership after the `for t in ts: d[t].add(x)` loop (fixed source
`x`, varying target key). -/
theorem mem_lookupD_foldAdd (ts : List String)
    (m : List (String × List String)) (x a y : String) :
    y ∈ lookupD (ts.foldl (fun m t => mapAddTo m t x) m) a [] ↔
      ((y = x ∧ a ∈ ts) ∨ y ∈ lookupD m a []) := by
  induction ts generalizing m with
  | nil => simp
  | cons t ts ih =>
    rw [List.foldl_cons, ih, mem_lookupD_mapAddTo]
    by_cases hat : a = t
    · subst hat
      simp only [eq_self_iff_true, if_true, List.mem_cons]
      tauto
    · simp only [if_neg hat, List.mem_cons]
      tauto

/-- Membership after the `for t in ts: d[key].add(t)` loop (fixed key,
varying added element). -/
theorem mem_lookupD_foldAddOut (ts : List String)
    (m : List (String × List String)) (key a y : String) :
    y ∈ lookupD (ts.foldl (fun m t => mapAddTo m key t) m) a [] ↔
      ((a = key ∧ y ∈ ts) ∨ y ∈ lookupD m a []) := by
  induction ts generalizing m with
  | nil => simp
  | cons t ts ih =>
    rw [List.foldl_cons, ih, mem_lookupD_mapAddTo]
    by_cases hak : a = key
    · subst hak
      simp only [eq_self_iff_true, if_true, List.mem_cons]
      tauto
    · simp only [if_neg hak, List.mem_cons]
      tauto

/-! ### C1: the outgoing/incoming inverse invariant -/

theorem inv_add_helper_pos (A F C T B : Prop) (hT : T) (hF : ¬F)
    (hBC : B ↔ C) : ((A ∨ F) ↔ (A ∨ (C ∧ ¬(T ∧ B)))) := by tauto

theorem inv_add_helper_neg (S A B C D : Prop) (hS : ¬S) (hBC : B ↔ C) :
    (((S ∧ A) ∨ B) ↔ ((S ∧ A) ∨ (C ∧ ¬(S ∧ D)))) := by tauto

theorem inv_rm_helper_one (F C T B : Prop) (hT : T) (hF : ¬F)
    (hBC : B ↔ C) : (F ↔ (C ∧ ¬(T ∧ B))) := by tauto

theorem inv_rm_helper_two (B C S T Sk E F : Prop) (hT : T) (hSk : ¬Sk)
    (hF : ¬F) (hBC : B ↔ C) (hS : S ↔ (C ∧ ¬(Sk ∧ E))) :
    ((B ∧ ¬(T ∧ S)) ↔ F) := by tauto

theorem inv_rm_helper_three (B C Tk Sk X Y : Prop) (hTk : ¬Tk) (hSk : ¬Sk)
    (hBC : B ↔ C) : ((B ∧ ¬(Tk ∧ X)) ↔ (C ∧ ¬(Sk ∧ Y))) := by tauto

/-- The spec's graph inverse invariant:
`∀ s t, t ∈ outgoing[s] ⟺ s ∈ incoming[t]` (an absent key reads as the
empty set, exactly as for Python's `defaultdict(set)`). -/
def InverseInv (g : WikilinkGraph) : Prop :=
  ∀ s t : String, t ∈ lookupD g.outgoing s [] ↔ s ∈ lookupD g.incoming t []

theorem inverseInv_empty : InverseInv emptyGraph := by
  intro s t
  simp [emptyGraph, lookupD, mapLookup]

/-- The wikilinks fold of `add_note`, split by field: the title map never
changes, so every link resolves against the initial one. -/
theorem foldl_addLinksStep (key : String) (ls : List String)
    (g : WikilinkGraph) :
    ls.foldl (addLinksStep key) g =
      ⟨(ls.map (resolveTitle g.title_to_path)).foldl
          (fun m t => mapAddTo m key t) g.outgoing,
       (ls.map (resolveTitle g.title_to_path)).foldl
          (fun m t => mapAddTo m t key) g.incoming,
       g.title_to_path⟩ := by
  induction ls generalizing g with
  | nil => cases g; rfl
  | cons l ls ih =>
    rw [List.foldl_cons, ih]
    rfl

theorem inverseInv_addNote (g : WikilinkGraph) (note_path title : String)
    (wikilinks : List String) (h : InverseInv g) :
    InverseInv (addNote g note_path title wikilinks) := by
  simp only [addNote, foldl_addLinksStep]
  intro s t
  rw [mem_lookupD_foldAddOut, mem_lookupD_foldAdd, mem_lookupD_foldDiscard,
    lookupD_mapSet]
  by_cases hs : s = normalizePath note_path
  · subst hs
    rw [if_pos rfl]
    exact inv_add_helper_pos _ _ _ _ _ rfl (List.not_mem_nil t)
      (h (normalizePath note_path) t)
  · rw [if_neg hs]
    exact inv_add_helper_neg _ _ _ _ _ hs (h s t)

theorem inverseInv_removeNote (g : WikilinkGraph) (note_path : String)
    (h : InverseInv g) : InverseInv (removeNote g note_path) := by
  simp only [removeNote]
  intro s t
  rw [lookupD_mapPop, lookupD_mapPop]
  by_cases hs : s = normalizePath note_path
  · subst hs
    rw [if_pos rfl]
    by_cases ht : t = normalizePath note_path
    · rw [if_pos ht]
      simp
    · rw [if_neg ht, mem_lookupD_foldDiscard]
      exact inv_rm_helper_one _ _ _ _ rfl (List.not_mem_nil t)
        (h (normalizePath note_path) t)
  · rw [if_neg hs]
    by_cases ht : t = normalizePath note_path
    · subst ht
      rw [if_pos rfl, mem_lookupD_foldDiscard]
      exact inv_rm_helper_two _ _ _ _ _ _ _ rfl hs (List.not_mem_nil s)
        (h s (normalizePath note_path))
        (mem_lookupD_foldDiscard
          (lookupD g.outgoing (normalizePath note_path) []) g.incoming
          (normalizePath note_path) (normalizePath note_path) s)
    · rw [if_neg ht, mem_lookupD_foldDiscard,
        mem_lookupD_foldDiscard
          (lookupD g.outgoing (normalizePath note_path) []) g.incoming
          (normalizePath note_path) t s]
      exact inv_rm_helper_three _ _ _ _ _ _ ht hs (h s t)

theorem inverseInv_rebuildFromNotes (g : WikilinkGraph)
    (notes : List NoteRec) : InverseInv (rebuildFromNotes g notes) := by
  simp only [rebuildFromNotes]
  have : ∀ (ns : List NoteRec) (g0 : WikilinkGraph), InverseInv g0 →
      InverseInv (ns.foldl
        (fun gg n => addNote gg n.vaultPath n.theTitle n.links) g0) := by
    intro ns
    induction ns with
    | nil => exact fun g0 h => h
    | cons n ns ih =>
      intro g0 h
      exact ih _ (inverseInv_addNote g0 _ _ _ h)
  exact this notes emptyGraph inverseInv_empty

/-- The graph states reachable from a fresh `WikilinkGraph()` by any finite
sequence of `add_note` / `remove_note` / `rebuild_from_notes` calls. -/
inductive ReachableGraph : WikilinkGraph → Prop where
  | empty : ReachableGraph emptyGraph
  | add (note_path title : String) (wikilinks : List String)
      {g : WikilinkGraph} :
      ReachableGraph g → ReachableGraph (addNote g note_path title wikilinks)
  | remove (note_path : String) {g : WikilinkGraph} :
      ReachableGraph g → ReachableGraph (removeNote g note_path)
  | rebuild (notes : List NoteRec) {g : WikilinkGraph} :
      ReachableGraph g → ReachableGraph (rebuildFromNotes g notes)

/-- **C1** (confirmed).  For every graph state reachable from the empty
`WikilinkGraph` by any finite sequence of `add_note`, `remove_note` and
`rebuild_from_notes` calls, and for every pair of identities `s` and `t`,
`t ∈ outgoing[s]` if and only if `s ∈ incoming[t]`. -/
theorem c1_graph_inverse_invariant (g : WikilinkGraph)
    (hg : ReachableGraph g) (s t : String) :
    t ∈ lookupD g.outgoing s [] ↔ s ∈ lookupD g.incoming t [] := by
  have hinv : InverseInv g := by
    induction hg with
    | empty => exact inverseInv_empty
    | add note_path title wikilinks _ ih =>
      exact inverseInv_addNote _ note_path title wikilinks ih
    | remove note_path _ ih => exact inverseInv_removeNote _ note_path ih
    | rebuild notes _ _ => exact inverseInv_rebuildFromNotes _ notes
  exact hinv s t

/-- Witness for C1: the invariant holds at the concrete reachable graph
obtained by adding note `n1` with a link to `n2` and then removing `n2`. -/
theorem c1_graph_inverse_invariant_witness :
    ("n2" ∈ lookupD (removeNote
        (addNote emptyGraph "n1" "N1" ["n2"]) "n2").outgoing "n1" [] ↔
      "n1" ∈ lookupD (removeNote
        (addNote emptyGraph "n1" "N1" ["n2"]) "n2").incoming "n2" []) :=
  c1_graph_inverse_invariant _
    (ReachableGraph.remove "n2"
      (ReachableGraph.add "n1" "N1" ["n2"] ReachableGraph.empty)) "n1" "n2"

/-! ### C8: idempotence of `add_note` -/

theorem c8_helper (K M O E : Prop) (hO : O ↔ M) :
    (((K ∧ M) ∨ (((K ∧ M) ∨ E) ∧ ¬(K ∧ O))) ↔ ((K ∧ M) ∨ E)) := by tauto

theorem mapSet_key_bound {β : Type} (m : List (String × β)) (k : String)
    (v : β) : (mapSet m k v).any (fun p => p.1 = k) = true := by
  unfold mapSet
  by_cases hb : m.any (fun p => p.1 = k)
  · rw [if_pos hb]
    rcases List.any_eq_true.mp hb with ⟨p, hp, hpk⟩
    refine List.any_eq_true.mpr ⟨(k, v), List.mem_map.mpr ⟨p, hp, ?_⟩,
      by simp⟩
    simp [of_decide_eq_true hpk]
  · rw [if_neg hb]
    exact List.any_eq_true.mpr ⟨(k, v),
      List.mem_append.mpr (Or.inr (List.mem_singleton.mpr rfl)), by simp⟩

theorem mapSet_bound_preserved {β : Type} (m : List (String × β))
    (k k' : String) (v' : β) (h : m.any (fun p => p.1 = k) = true) :
    (mapSet m k' v').any (fun p => p.1 = k) = true := by
  unfold mapSet
  rcases List.any_eq_true.mp h with ⟨p, hp, hpk⟩
  have hpk' : p.1 = k := of_decide_eq_true hpk
  by_cases hb : m.any (fun p => p.1 = k')
  · rw [if_pos hb]
    by_cases hpq : p.1 = k'
    · exact List.any_eq_true.mpr ⟨(k', v'),
        List.mem_map.mpr ⟨p, hp, by simp [hpq]⟩, by simp [← hpq, hpk']⟩
    · exact List.any_eq_true.mpr ⟨p,
        List.mem_map.mpr ⟨p, hp, by simp [hpq]⟩, by simp [hpk']⟩
  · rw [if_neg hb]
    exact List.any_eq_true.mpr ⟨p, List.mem_append.mpr (Or.inl hp),
      by simp [hpk']⟩

theorem vals_at_key_mapSet {β : Type} (m : List (String × β))
    (k k' : String) (v : β) (h : ∀ q ∈ m, q.1 = k → q.2 = v) :
    ∀ q ∈ mapSet m k' v, q.1 = k → q.2 = v := by
  unfold mapSet
  by_cases hb : m.any (fun p => p.1 = k')
  · rw [if_pos hb]
    intro q hq hqk
    rcases List.mem_map.mp hq with ⟨p, hp, hpq⟩
    by_cases hpk' : p.1 = k'
    · rw [if_pos hpk'] at hpq
      rw [← hpq]
    · rw [if_neg hpk'] at hpq
      exact h q (hpq ▸ hp) hqk
  · rw [if_neg hb]
    intro q hq hqk
    rcases List.mem_append.mp hq with hq | hq
    · exact h q hq hqk
    · rw [List.mem_singleton.mp hq]

theorem vals_at_own_key_mapSet {β : Type} (m : List (String × β))
    (k : String) (v : β) :
    ∀ q ∈ mapSet m k v, q.1 = k → q.2 = v := by
  unfold mapSet
  by_cases hb : m.any (fun p => p.1 = k)
  · rw [if_pos hb]
    intro q hq hqk
    rcases List.mem_map.mp hq with ⟨p, hp, hpq⟩
    by_cases hpk : p.1 = k
    · rw [if_pos hpk] at hpq
      rw [← hpq]
    · rw [if_neg hpk] at hpq
      exact absurd (hpq ▸ hqk) hpk
  · rw [if_neg hb]
    intro q hq hqk
    rcases List.mem_append.mp hq with hq | hq
    · exact absurd (List.any_eq_true.mpr ⟨q, hq, by simp [hqk]⟩) hb
    · rw [List.mem_singleton.mp hq]

theorem mapSet_eq_self {β : Type} (m : List (String × β)) (k : String)
    (v : β) (hb : m.any (fun p => p.1 = k) = true)
    (hv : ∀ q ∈ m, q.1 = k → q.2 = v) : mapSet m k v = m := by
  unfold mapSet
  rw [if_pos hb]
  have : ∀ q ∈ m, (if q.1 = k then (k, v) else q) = q := by
    intro q hq
    by_cases hqk : q.1 = k
    · rw [if_pos hqk]
      have h1 : q.2 = v := hv q hq hqk
      cases q with
      | mk q1 q2 =>
        simp only at hqk h1
        rw [hqk, h1]
    · rw [if_neg hqk]
  calc m.map (fun q => if q.1 = k then (k, v) else q)
      = m.map id := List.map_congr_left this
    _ = m := List.map_id m

/-- `lookupD` of the wikilinks outgoing-fold at the note's own key: the new
outgoing set is exactly the fold of `setAdd` over the resolved targets. -/
theorem lookupD_foldAddOut_at_key (ts : List String)
    (m : List (String × List String)) (key : String) :
    lookupD (ts.foldl (fun m t => mapAddTo m key t) m) key [] =
      ts.foldl setAdd (lookupD m key []) := by
  induction ts generalizing m with
  | nil => rfl
  | cons t ts ih =>
    rw [List.foldl_cons, ih, List.foldl_cons]
    congr 1
    unfold mapAddTo
    rw [lookupD_mapSet, if_pos rfl]

theorem mem_foldl_setAdd (l acc : List String) (y : String) :
    y ∈ l.foldl setAdd acc ↔ y ∈ acc ∨ y ∈ l := by
  induction l generalizing acc with
  | nil => simp
  | cons x l ih =>
    rw [List.foldl_cons, ih, mem_setAdd, List.mem_cons]
    tauto

/-- The `title_to_path` map produced by `add_note`, as a function of the
previous one. -/
def titleMapAfter (tm : List (String × String)) (title note_key : String) :
    List (String × String) :=
  mapSet (mapSet tm (pyLower title) note_key) (pyLower note_key) note_key

theorem titleMapAfter_idem (tm : List (String × String))
    (title note_key : String) :
    titleMapAfter (titleMapAfter tm title note_key) title note_key =
      titleMapAfter tm title note_key := by
  unfold titleMapAfter
  set k1 := pyLower title
  set k2 := pyLower note_key
  set t1 := mapSet tm k1 note_key with ht1
  set t2 := mapSet t1 k2 note_key with ht2
  have hb1 : t2.any (fun p => p.1 = k1) = true :=
    mapSet_bound_preserved _ _ _ _ (mapSet_key_bound tm k1 note_key)
  have hv1 : ∀ q ∈ t2, q.1 = k1 → q.2 = note_key :=
    vals_at_key_mapSet _ _ _ _ (vals_at_own_key_mapSet tm k1 note_key)
  have hb2 : t2.any (fun p => p.1 = k2) = true := mapSet_key_bound t1 k2 _
  have hv2 : ∀ q ∈ t2, q.1 = k2 → q.2 = note_key :=
    vals_at_own_key_mapSet t1 k2 note_key
  rw [mapSet_eq_self t2 k1 note_key hb1 hv1,
    mapSet_eq_self t2 k2 note_key hb2 hv2]

/-- `add_note` in closed form (fold of `addLinksStep` resolved). -/
theorem addNote_eq (g : WikilinkGraph) (note_path title : String)
    (wikilinks : List String) :
    addNote g note_path title wikilinks =
      ⟨(wikilinks.map (resolveTitle
            (titleMapAfter g.title_to_path title (normalizePath note_path)))).foldl
          (fun m t => mapAddTo m (normalizePath note_path) t)
          (mapSet g.outgoing (normalizePath note_path) []),
        (wikilinks.map (resolveTitle
            (titleMapAfter g.title_to_path title (normalizePath note_path)))).foldl
          (fun m t => mapAddTo m t (normalizePath note_path))
          ((lookupD g.outgoing (normalizePath note_path) []).foldl
            (fun m tgt => mapDiscardFrom m tgt (normalizePath note_path))
            g.incoming),
        titleMapAfter g.title_to_path title (normalizePath note_path)⟩ := by
  simp only [addNote, foldl_addLinksStep, titleMapAfter]

/-- **C8** (confirmed).  Calling `add_note(id, title, links)` twice in a row
with identical arguments leaves `outgoing[id]` (literally), every
`incoming` entry (as a set) and every alias resolution identical to the
state after a single such call. -/
theorem c8_add_note_idempotent (g : WikilinkGraph)
    (note_path title : String) (wikilinks : List String) :
    lookupD (addNote (addNote g note_path title wikilinks)
        note_path title wikilinks).outgoing (normalizePath note_path) [] =
      lookupD (addNote g note_path title wikilinks).outgoing
        (normalizePath note_path) [] ∧
    (∀ t x : String,
      x ∈ lookupD (addNote (addNote g note_path title wikilinks)
          note_path title wikilinks).incoming t [] ↔
        x ∈ lookupD (addNote g note_path title wikilinks).incoming t []) ∧
    (∀ link : String,
      resolveLink (addNote (addNote g note_path title wikilinks)
          note_path title wikilinks) link =
        resolveLink (addNote g note_path title wikilinks) link) := by
  set key := normalizePath note_path with hkey
  set g1 := addNote g note_path title wikilinks with hg1
  have h1 := addNote_eq g note_path title wikilinks
  have htm1 : g1.title_to_path = titleMapAfter g.title_to_path title key := by
    rw [hg1, h1]
  have h2 := addNote_eq g1 note_path title wikilinks
  rw [htm1, titleMapAfter_idem] at h2
  set tm := titleMapAfter g.title_to_path title key with htm
  set ts := wikilinks.map (resolveTitle tm) with hts
  have hout1 : lookupD g1.outgoing key [] = ts.foldl setAdd [] := by
    rw [hg1, h1]
    rw [lookupD_foldAddOut_at_key, lookupD_mapSet, if_pos rfl]
  refine ⟨?_, ?_, ?_⟩
  · rw [h2]
    rw [lookupD_foldAddOut_at_key, lookupD_mapSet, if_pos rfl, hout1]
  · intro t x
    rw [h2]
    simp only
    rw [mem_lookupD_foldAdd, mem_lookupD_foldDiscard]
    have hmem1 : x ∈ lookupD g1.incoming t [] ↔
        ((x = key ∧ t ∈ ts) ∨
          (x ∈ lookupD g.incoming t [] ∧
            ¬ (x = key ∧ t ∈ lookupD g.outgoing key []))) := by
      rw [hg1, h1]
      simp only
      rw [mem_lookupD_foldAdd, mem_lookupD_foldDiscard]
    have hold2 : t ∈ lookupD g1.outgoing key [] ↔ t ∈ ts := by
      rw [hout1, mem_foldl_setAdd]
      simp
    rw [hmem1]
    exact c8_helper _ _ _ _ hold2
  · intro link
    unfold resolveLink
    rw [h2]
    simp only
    rw [htm1]

/-! ### C3 / C6: persistence round trip and load failure -/

/-- Well-formedness every Python `WikilinkGraph` state enjoys by
construction: dict keys are unique and the value sets are duplicate-free
(they are `set`s). -/
def WFGraph (g : WikilinkGraph) : Prop :=
  (g.outgoing.map (fun p => p.1)).Nodup ∧
  (g.incoming.map (fun p => p.1)).Nodup ∧
  (∀ p ∈ g.outgoing, p.2.Nodup) ∧
  (∀ p ∈ g.incoming, p.2.Nodup)

theorem pySetOfList_go (l : List String) :
    ∀ acc : List String, l.Nodup → (∀ x ∈ l, x ∉ acc) →
    l.foldl (fun acc x => if x ∈ acc then acc else acc ++ [x]) acc =
      acc ++ l := by
  induction l with
  | nil => intro acc _ _; simp
  | cons x l ih =>
    intro acc h hd
    rw [List.foldl_cons, if_neg (hd x (List.mem_cons_self x l))]
    have hd' : ∀ y ∈ l, y ∉ acc ++ [x] := by
      intro y hy
      simp only [List.mem_append, List.mem_singleton]
      rintro (hc | rfl)
      · exact hd y (List.mem_cons_of_mem x hy) hc
      · exact (List.nodup_cons.mp h).1 hy
    rw [ih (acc ++ [x]) (List.nodup_cons.mp h).2 hd']
    simp

theorem pySetOfList_eq_self (l : List String) (h : l.Nodup) :
    pySetOfList l = l := by
  unfold pySetOfList
  simpa using pySetOfList_go l [] h (by simp)

theorem jStrList_map_str (l : List String) :
    jStrList (l.map JValue.str) = some l := by
  induction l with
  | nil => rfl
  | cons x l ih => simp [jStrList, ih, jStrOf]

theorem pySet_saved (l : List String) (h : l.Nodup) :
    pySet (.arr (l.map .str)) = some l := by
  rw [pySet, jStrList_map_str]
  simp [pySetOfList_eq_self l h]

theorem mapSet_unbound {β : Type} (m : List (String × β)) (k : String)
    (v : β) (h : ∀ q ∈ m, q.1 ≠ k) : mapSet m k v = m ++ [(k, v)] := by
  unfold mapSet
  rw [if_neg]
  intro hb
  rcases List.any_eq_true.mp hb with ⟨p, hp, hpk⟩
  exact h p hp (of_decide_eq_true hpk)

theorem loadPairs_saved (l : List (String × List String)) :
    ∀ acc : List (String × List String),
    (l.map (fun p => p.1)).Nodup →
    (∀ p ∈ l, p.2.Nodup) →
    (∀ p ∈ l, ∀ q ∈ acc, q.1 ≠ p.1) →
    loadPairs acc (l.map (fun p => (p.1, JValue.arr (p.2.map .str)))) =
      (acc ++ l, true) := by
  induction l with
  | nil => intro acc _ _ _; simp [loadPairs]
  | cons p l ih =>
    intro acc hk hv hbound
    rw [List.map_cons, loadPairs,
      pySet_saved p.2 (hv p (List.mem_cons_self p l))]
    show loadPairs (mapSet acc p.1 p.2)
        (l.map (fun p => (p.1, JValue.arr (p.2.map .str)))) =
      (acc ++ p :: l, true)
    rw [mapSet_unbound acc p.1 p.2
      (fun q hq => hbound p (List.mem_cons_self p l) q hq)]
    have hstep := ih (acc ++ [(p.1, p.2)])
      (List.nodup_cons.mp (by simpa using hk)).2
      (fun q hq => hv q (List.mem_cons_of_mem p hq))
      (by
        intro r hr q hq
        rcases List.mem_append.mp hq with hq | hq
        · exact hbound r (List.mem_cons_of_mem p hr) q hq
        · rw [List.mem_singleton.mp hq]
          intro hcon
          exact (List.nodup_cons.mp (by simpa using hk)).1
            (List.mem_map.mpr ⟨r, hr, hcon.symm⟩))
    rw [hstep]
    simp

theorem jStrPairs_saved (tm : List (String × String)) :
    jStrPairs (.obj (tm.map (fun p => (p.1, JValue.str p.2)))) = tm := by
  rw [jStrPairs, List.filterMap_map]
  have : ∀ p : String × String,
      ((fun q : String × JValue => match q.2 with
        | .str s => some (q.1, s)
        | _ => none) ∘ fun p : String × String => (p.1, JValue.str p.2)) p =
        some p := by
    intro p
    rfl
  rw [List.filterMap_congr (fun p _ => this p)]
  induction tm with
  | nil => rfl
  | cons p tm ih => simp [List.filterMap_cons, ih]

/-- `save` then `load` restores the exact graph state (for well-formed
states, i.e. all Python-representable ones). -/
theorem loadJson_saveJson (g fresh : WikilinkGraph) (h : WFGraph g) :
    loadJson fresh (some (saveJson g)) = (g, true) := by
  obtain ⟨hko, hki, hvo, hvi⟩ := h
  have hop : loadPairs []
      (g.outgoing.map (fun p => (p.1, JValue.arr (p.2.map .str)))) =
      (g.outgoing, true) := by
    simpa using loadPairs_saved g.outgoing [] hko hvo
      (by intro p _ q hq; cases hq)
  have hip : loadPairs []
      (g.incoming.map (fun p => (p.1, JValue.arr (p.2.map .str)))) =
      (g.incoming, true) := by
    simpa using loadPairs_saved g.incoming [] hki hvi
      (by intro p _ q hq; cases hq)
  simp [loadJson, saveJson, jGetD, jFieldLookup, jItems, List.find?,
    Option.getD, hop, hip, jStrPairs_saved]

/-- **C3** (confirmed).  Saving any (well-formed, i.e.
Python-representable) graph state and loading the file into a fresh
`WikilinkGraph` yields a graph on which `get_backlinks`,
`get_outgoing_links`, `get_orphan_notes` and `get_broken_links` return the
same results, for every identity argument, as on the original graph. -/
theorem c3_save_load_round_trip (g fresh : WikilinkGraph) (h : WFGraph g)
    (q : String) :
    getBacklinks (loadJson fresh (some (saveJson g))).1 q =
      getBacklinks g q ∧
    getOutgoingLinks (loadJson fresh (some (saveJson g))).1 q =
      getOutgoingLinks g q ∧
    getOrphanNotes (loadJson fresh (some (saveJson g))).1 =
      getOrphanNotes g ∧
    getBrokenLinks (loadJson fresh (some (saveJson g))).1 =
      getBrokenLinks g := by
  rw [loadJson_saveJson g fresh h]
  exact ⟨rfl, rfl, rfl, rfl⟩

/-- Witness for C3 at the concrete graph `a → b`, queried at `b`. -/
theorem c3_save_load_round_trip_witness :
    WFGraph ⟨[("a", ["b"]), ("b", [])], [("b", ["a"])], [("a", "a")]⟩ ∧
    (getBacklinks (loadJson emptyGraph (some (saveJson
        ⟨[("a", ["b"]), ("b", [])], [("b", ["a"])], [("a", "a")]⟩))).1 "b" =
      getBacklinks
        ⟨[("a", ["b"]), ("b", [])], [("b", ["a"])], [("a", "a")]⟩ "b" ∧
    getOutgoingLinks (loadJson emptyGraph (some (saveJson
        ⟨[("a", ["b"]), ("b", [])], [("b", ["a"])], [("a", "a")]⟩))).1 "b" =
      getOutgoingLinks
        ⟨[("a", ["b"]), ("b", [])], [("b", ["a"])], [("a", "a")]⟩ "b" ∧
    getOrphanNotes (loadJson emptyGraph (some (saveJson
        ⟨[("a", ["b"]), ("b", [])], [("b", ["a"])], [("a", "a")]⟩))).1 =
      getOrphanNotes
        ⟨[("a", ["b"]), ("b", [])], [("b", ["a"])], [("a", "a")]⟩ ∧
    getBrokenLinks (loadJson emptyGraph (some (saveJson
        ⟨[("a", ["b"]), ("b", [])], [("b", ["a"])], [("a", "a")]⟩))).1 =
      getBrokenLinks
        ⟨[("a", ["b"]), ("b", [])], [("b", ["a"])], [("a", "a")]⟩) :=
  ⟨⟨by decide, by decide, by decide, by decide⟩,
    c3_save_load_round_trip _ emptyGraph
      ⟨by decide, by decide, by decide, by decide⟩ "b"⟩

/-- Counterexample to **C6**: loading a file whose content is the valid
JSON document `[]` (it parses, but is not an object) returns `false`
without raising — yet it clears the prior `outgoing` map (the assignment
`self.outgoing = defaultdict(set)` runs before `data.get('outgoing', {})`
raises `AttributeError`) while keeping `incoming` and `title_to_path`, so
the graph is *not* left in its prior state. -/
theorem c6_load_counterexample :
    (loadJson ⟨[("a", ["b"])], [("b", ["a"])], []⟩ (some (.arr []))).2 =
      false ∧
    getOutgoingLinks
        (loadJson ⟨[("a", ["b"])], [("b", ["a"])], []⟩ (some (.arr []))).1
        "a" ≠
      getOutgoingLinks ⟨[("a", ["b"])], [("b", ["a"])], []⟩ "a" :=
  ⟨by decide, by decide⟩

/-- **C6** amended.  `load` never raises and reports failure with a `false`
return; when the file is missing or its content is not syntactically valid
JSON (the `json.loads` step fails, modelled by `none`), the graph is left
exactly in its prior state.  When the content parses but has the wrong
shape, `load` still returns `false` but may leave the graph partially
reset (see the counterexample). -/
theorem c6_load_failure_amended (g : WikilinkGraph) :
    loadJson g none = (g, false) ∧
    (∀ xs : List JValue, (loadJson g (some (.arr xs))).2 = false) :=
  ⟨rfl, fun _ => rfl⟩

/-! ### C5 / C10: the metadata filter evaluator -/

/-- Counterexample to **C5**: the *empty* attribute map lacks the location
attribute, yet `_match_where` matches it against the folder filter because
of the `if not where or not metadata: return True` guard. -/
theorem c5_folder_filter_counterexample :
    matchWhere [] (buildWhereFilter (some "Projects") none) = true ∧
    strContains (attrLookup [] "vault_path") "Projects" = false :=
  ⟨by decide, by decide⟩

/-- **C5** amended.  For every *non-empty* attribute map, the filter built
from `folder="Projects"` matches exactly when the `vault_path` (location)
attribute contains the substring `"Projects"`, a missing key being read as
the empty string; the empty (falsy) map instead matches unconditionally. -/
theorem c5_folder_filter_amended (attrs : List (String × String))
    (h : attrs ≠ []) :
    (matchWhere attrs (buildWhereFilter (some "Projects") none) = true ↔
      strContains (attrLookup attrs "vault_path") "Projects" = true) := by
  have hb : buildWhereFilter (some "Projects") none =
      some (.leaf [("vault_path", .contains "Projects")]) := rfl
  rw [hb]
  cases attrs with
  | nil => exact absurd rfl h
  | cons p rest =>
    show matchWhereW (p :: rest)
        (.leaf [("vault_path", .contains "Projects")]) = true ↔ _
    rw [matchWhereW]
    simp [evalCond]

/-- Witness for the amended C5 at a concrete one-entry attribute map whose
location contains "Projects". -/
theorem c5_folder_filter_amended_witness :
    ([(("vault_path" : String), ("x/Projects/y" : String))] ≠
        ([] : List (String × String))) ∧
    (matchWhere [("vault_path", "x/Projects/y")]
        (buildWhereFilter (some "Projects") none) = true ↔
      strContains (attrLookup [("vault_path", "x/Projects/y")] "vault_path")
        "Projects" = true) :=
  ⟨by decide, c5_folder_filter_amended _ (by decide)⟩

/-- **C10** (confirmed).  For every filter expression (including ones with
`$contains` conditions), `_match_where` returns `True` whenever the
attribute map is empty (falsy): a note with no metadata matches every
filter. -/
theorem c10_empty_metadata_matches_every_filter (w : Option Where) :
    matchWhere [] w = true := by
  cases w with
  | none => rfl
  | some w => cases w <;> rfl

/-! ### C9: blocking `ensure_bm25_index` -/

/-- Counterexample to **C9**: a blocking call made while another build is
in progress (`_bm25_building = true`, index not yet published) returns
`False` immediately — it neither performs the build (the build counter is
unchanged) nor returns `True`. -/
theorem c9_blocking_ensure_counterexample :
    ensureBm25Blocking ⟨none, true, 0⟩ ["apple banana"] =
      (⟨none, true, 0⟩, false) := by decide

/-- **C9** amended.  A blocking `ensure_bm25_index(background=False)` call
that finds no index and no build in progress performs exactly one build and
returns `True` (for a non-empty corpus); a second blocking call afterwards
returns `True` without building again; but a blocking call made while
another build is in progress returns `False` immediately, without waiting
and without building. -/
theorem c9_blocking_ensure_amended (s sB : RetrieverState)
    (docs : List String) (h1 : s.bm25 = none) (h2 : s.building = false)
    (h3 : docs ≠ []) (hB1 : sB.bm25 = none) (hB2 : sB.building = true) :
    (ensureBm25Blocking s docs).2 = true ∧
    (ensureBm25Blocking s docs).1.buildCount = s.buildCount + 1 ∧
    (ensureBm25Blocking (ensureBm25Blocking s docs).1 docs).2 = true ∧
    (ensureBm25Blocking (ensureBm25Blocking s docs).1 docs).1.buildCount =
      s.buildCount + 1 ∧
    ensureBm25Blocking sB docs = (sB, false) := by
  have hd : docs.isEmpty = false := by
    cases docs with
    | nil => exact absurd rfl h3
    | cons a l => rfl
  refine ⟨?_, ?_, ?_, ?_, ?_⟩ <;>
    simp [ensureBm25Blocking, h1, h2, hd, hB1, hB2]

/-- Witness for the amended C9 at concrete states. -/
theorem c9_blocking_ensure_amended_witness :
    ((ensureBm25Blocking ⟨none, false, 0⟩ ["apple banana"]).2 = true ∧
    (ensureBm25Blocking ⟨none, false, 0⟩ ["apple banana"]).1.buildCount =
      0 + 1 ∧
    (ensureBm25Blocking
        (ensureBm25Blocking ⟨none, false, 0⟩ ["apple banana"]).1
        ["apple banana"]).2 = true ∧
    (ensureBm25Blocking
        (ensureBm25Blocking ⟨none, false, 0⟩ ["apple banana"]).1
        ["apple banana"]).1.buildCount = 0 + 1 ∧
    ensureBm25Blocking ⟨none, true, 5⟩ ["apple banana"] =
      (⟨none, true, 5⟩, false)) :=
  c9_blocking_ensure_amended ⟨none, false, 0⟩ ⟨none, true, 5⟩
    ["apple banana"] rfl rfl (by decide) rfl rfl

/-! ### Generic facts about the stable sort -/

theorem stableInsert_perm {α : Type} (le : α → α → Bool) (x : α)
    (l : List α) : List.Perm (stableInsert le x l) (x :: l) := by
  induction l with
  | nil => exact List.Perm.refl _
  | cons y ys ih =>
    rw [stableInsert]
    by_cases h : le x y
    · rw [if_pos h]
    · rw [if_neg h]
      exact (ih.cons y).trans (List.Perm.swap x y ys)

theorem stableSort_perm {α : Type} (le : α → α → Bool) (l : List α) :
    List.Perm (stableSort le l) l := by
  induction l with
  | nil => exact List.Perm.refl _
  | cons x xs ih =>
    exact (stableInsert_perm le x (stableSort le xs)).trans (ih.cons x)

theorem pairwise_stableInsert {α : Type} (le : α → α → Bool)
    (htot : ∀ a b, le a b = true ∨ le b a = true)
    (htrans : ∀ a b c, le a b = true → le b c = true → le a c = true)
    (x : α) (l : List α) (hl : l.Pairwise (fun a b => le a b = true)) :
    (stableInsert le x l).Pairwise (fun a b => le a b = true) := by
  induction l with
  | nil => simp [stableInsert]
  | cons y ys ih =>
    rw [stableInsert]
    rcases List.pairwise_cons.mp hl with ⟨hy, hys⟩
    by_cases h : le x y
    · rw [if_pos h]
      refine List.pairwise_cons.mpr ⟨?_, hl⟩
      intro z hz
      rcases List.mem_cons.mp hz with rfl | hz
      · exact h
      · exact htrans x y z h (hy z hz)
    · rw [if_neg h]
      have hyx : le y x = true := by
        rcases htot x y with hc | hc
        · exact absurd hc h
        · exact hc
      refine List.pairwise_cons.mpr ⟨?_, ih hys⟩
      intro z hz
      rcases List.mem_cons.mp
          ((stableInsert_perm le x ys).mem_iff.mp hz) with h1 | h1
      · rw [h1]
        exact hyx
      · exact hy z h1

theorem pairwise_stableSort {α : Type} (le : α → α → Bool)
    (htot : ∀ a b, le a b = true ∨ le b a = true)
    (htrans : ∀ a b c, le a b = true → le b c = true → le a c = true)
    (l : List α) :
    (stableSort le l).Pairwise (fun a b => le a b = true) := by
  induction l with
  | nil => exact List.Pairwise.nil
  | cons x xs ih => exact pairwise_stableInsert le htot htrans x _ ih

/-- Ascending lexicographic order on `(position, score)` pairs: the order
produced by a stable ascending sort by score of a list whose positions
increase. -/
def lexAsc (p q : ℕ × ℚ) : Prop :=
  p.2 < q.2 ∨ (p.2 = q.2 ∧ p.1 < q.1)

theorem pairwise_lex_stableInsert (x : ℕ × ℚ) (l : List (ℕ × ℚ))
    (hx : ∀ q ∈ l, x.2 = q.2 → x.1 < q.1)
    (hl : l.Pairwise lexAsc) :
    (stableInsert (fun a b => a.2 ≤ b.2) x l).Pairwise lexAsc := by
  induction l with
  | nil => simp [stableInsert]
  | cons y ys ih =>
    rw [stableInsert]
    rcases List.pairwise_cons.mp hl with ⟨hy, hys⟩
    by_cases h : (x.2 ≤ y.2 : Bool)
    · rw [if_pos h]
      have hxy : x.2 ≤ y.2 := by simpa using h
      refine List.pairwise_cons.mpr ⟨?_, hl⟩
      intro z hz
      rcases List.mem_cons.mp hz with hzy | hz
      · rw [hzy]
        rcases lt_or_eq_of_le hxy with hlt | heq
        · exact Or.inl hlt
        · exact Or.inr ⟨heq, hx y (List.mem_cons_self y ys) heq⟩
      · have hyz : y.2 ≤ z.2 := by
          rcases hy z hz with h1 | h1
          · exact le_of_lt h1
          · exact le_of_eq h1.1
        rcases lt_or_eq_of_le (le_trans hxy hyz) with hlt | heq
        · exact Or.inl hlt
        · exact Or.inr ⟨heq, hx z (List.mem_cons_of_mem y hz) heq⟩
    · rw [if_neg h]
      have hyx : y.2 < x.2 := by
        have := (Bool.not_eq_true _).mp h
        simpa using lt_of_not_le (by simpa using this)
      refine List.pairwise_cons.mpr ⟨?_, ih
        (fun q hq hq2 => hx q (List.mem_cons_of_mem y hq) hq2) hys⟩
      intro z hz
      rcases List.mem_cons.mp
          ((stableInsert_perm _ x ys).mem_iff.mp hz) with h1 | h1
      · rw [h1]
        exact Or.inl hyx
      · exact hy z h1

theorem pairwise_lex_stableSort (l : List (ℕ × ℚ))
    (hl : l.Pairwise (fun p q => p.2 = q.2 → p.1 < q.1)) :
    (stableSort (fun a b => a.2 ≤ b.2) l).Pairwise lexAsc := by
  induction l with
  | nil => exact List.Pairwise.nil
  | cons x xs ih =>
    rcases List.pairwise_cons.mp hl with ⟨hx, hxs⟩
    refine pairwise_lex_stableInsert x _ ?_ (ih hxs)
    intro q hq
    exact hx q ((stableSort_perm _ xs).mem_iff.mp hq)

theorem pairwise_fst_lt_enum {α : Type} (l : List α) :
    (l.enum).Pairwise (fun p q => p.1 < q.1) := by
  have h1 : (l.enum).map (fun p => p.1) = List.range l.length :=
    List.enum_map_fst l
  have h2 : ((l.enum).map (fun p => p.1)).Pairwise (· < ·) := by
    rw [h1]
    exact List.pairwise_lt_range _
  exact List.pairwise_map.mp h2

/-! ### Characterizing the RRF score accumulator -/

theorem upsertScore_lookup (m : List (String × ScoreEntry)) (id a : String)
    (f : ScoreEntry → ScoreEntry) :
    mapLookup (upsertScore m id f) a =
      if a = id then some (f (lookupD m id {})) else mapLookup m a := by
  unfold upsertScore
  exact mapLookup_mapSet m id a _

theorem foldUpsert_lookup_of_not_mem (l : List (String × ℚ × ℕ))
    (upd : (String × ℚ × ℕ) → ScoreEntry → ScoreEntry) (id : String)
    (h : ∀ r ∈ l, ¬ r.1 = id) :
    ∀ m : List (String × ScoreEntry),
    mapLookup (l.foldl (fun m r => upsertScore m r.1 (upd r)) m) id =
      mapLookup m id := by
  induction l with
  | nil => intro m; rfl
  | cons r l ih =>
    intro m
    rw [List.foldl_cons,
      ih (fun q hq => h q (List.mem_cons_of_mem r hq)), upsertScore_lookup,
      if_neg (fun hc => h r (List.mem_cons_self r l) hc.symm)]

/-- Lookup in the accumulator after one contribution loop, assuming the
ranked list holds each identity at most once. -/
theorem foldUpsert_lookup (l : List (String × ℚ × ℕ))
    (upd : (String × ℚ × ℕ) → ScoreEntry → ScoreEntry)
    (hN : (l.map (fun r => r.1)).Nodup) :
    ∀ (m : List (String × ScoreEntry)) (id : String),
    mapLookup (l.foldl (fun m r => upsertScore m r.1 (upd r)) m) id =
      match l.find? (fun r => r.1 = id) with
      | some r => some (upd r (lookupD m id {}))
      | none => mapLookup m id := by
  induction l with
  | nil => intro m id; rfl
  | cons r l ih =>
    intro m id
    have hN2 : ((fun r => r.1) r :: l.map (fun r => r.1)).Nodup := by
      rw [← List.map_cons]
      exact hN
    rcases List.nodup_cons.mp hN2 with ⟨hr_notin, hN'⟩
    rw [List.foldl_cons]
    by_cases hr : r.1 = id
    · rw [List.find?_cons_of_pos _ (by simp [hr])]
      have hfresh : ∀ q ∈ l, ¬ q.1 = id := by
        intro q hq hq1
        exact hr_notin (List.mem_map.mpr ⟨q, hq, hq1.trans hr.symm⟩)
      rw [foldUpsert_lookup_of_not_mem l upd id hfresh, upsertScore_lookup,
        if_pos hr.symm, hr]
    · rw [List.find?_cons_of_neg _ (by simp [hr])]
      rw [ih hN' _ id]
      have hlook : lookupD (upsertScore m r.1 (upd r)) id {} =
          lookupD m id {} := by
        unfold lookupD
        rw [upsertScore_lookup, if_neg (fun h => hr h.symm)]
      cases hfind : l.find? (fun q => q.1 = id) with
      | some q => rw [hlook]
      | none => rw [upsertScore_lookup, if_neg (fun h => hr h.symm)]

theorem mapSet_keys {β : Type} (m : List (String × β)) (k : String)
    (v : β) :
    (mapSet m k v).map (fun p => p.1) =
      if m.any (fun p => p.1 = k) then m.map (fun p => p.1)
      else m.map (fun p => p.1) ++ [k] := by
  unfold mapSet
  by_cases hb : m.any (fun p => p.1 = k)
  · rw [if_pos hb, if_pos hb, List.map_map]
    refine List.map_congr_left ?_
    intro p _
    by_cases hp : p.1 = k
    · simp [hp]
    · simp [hp]
  · rw [if_neg hb, if_neg hb]
    simp

theorem any_fst_iff_mem {β : Type} (m : List (String × β)) (k : String) :
    m.any (fun p => p.1 = k) = true ↔ k ∈ m.map (fun p => p.1) := by
  rw [List.any_eq_true]
  constructor
  · rintro ⟨p, hp, hpk⟩
    exact List.mem_map.mpr ⟨p, hp, of_decide_eq_true hpk⟩
  · rintro h
    rcases List.mem_map.mp h with ⟨p, hp, hpk⟩
    exact ⟨p, hp, by simp [hpk]⟩

theorem foldUpsert_keys (l : List (String × ℚ × ℕ))
    (upd : (String × ℚ × ℕ) → ScoreEntry → ScoreEntry)
    (hN : (l.map (fun r => r.1)).Nodup) :
    ∀ m : List (String × ScoreEntry),
    (l.foldl (fun m r => upsertScore m r.1 (upd r)) m).map (fun p => p.1) =
      m.map (fun p => p.1) ++
        (l.map (fun r => r.1)).filter
          (fun id => decide (¬ id ∈ m.map (fun p => p.1))) := by
  induction l with
  | nil => intro m; simp
  | cons r l ih =>
    intro m
    have hN2 : ((fun r => r.1) r :: l.map (fun r => r.1)).Nodup := by
      rw [← List.map_cons]
      exact hN
    have hN' := (List.nodup_cons.mp hN2).2
    have hr_notin : r.1 ∉ l.map (fun q => q.1) :=
      (List.nodup_cons.mp hN2).1
    rw [List.foldl_cons, ih hN', List.map_cons]
    have hkeys := mapSet_keys m r.1 (upd r (lookupD m r.1 {}))
    by_cases hb : m.any (fun p => p.1 = r.1)
    · have hmem : r.1 ∈ m.map (fun p => p.1) := (any_fst_iff_mem m r.1).mp hb
      rw [show (upsertScore m r.1 (upd r)).map (fun p => p.1) =
          m.map (fun p => p.1) from by
        unfold upsertScore; rw [hkeys, if_pos hb]]
      rw [List.filter_cons_of_neg (by simp [hmem])]
    · have hmem : r.1 ∉ m.map (fun p => p.1) := by
        intro hc
        exact hb ((any_fst_iff_mem m r.1).mpr hc)
      rw [show (upsertScore m r.1 (upd r)).map (fun p => p.1) =
          m.map (fun p => p.1) ++ [r.1] from by
        unfold upsertScore; rw [hkeys, if_neg hb]]
      rw [List.filter_cons_of_pos (by simp [hmem])]
      have hcong : (l.map (fun q => q.1)).filter
          (fun id => decide (¬ id ∈ (m.map (fun p => p.1) ++ [r.1]))) =
          (l.map (fun q => q.1)).filter
            (fun id => decide (¬ id ∈ m.map (fun p => p.1))) := by
        apply List.filter_congr
        intro id hid
        have h1 : id ≠ r.1 := fun hc => hr_notin (hc ▸ hid)
        simp [List.mem_append, h1]
      rw [hcong, List.append_assoc, List.singleton_append]

theorem mem_lookup_of_nodup {β : Type} (m : List (String × β))
    (hN : (m.map (fun p => p.1)).Nodup) (p : String × β) (hp : p ∈ m) :
    mapLookup m p.1 = some p.2 := by
  induction m with
  | nil => cases hp
  | cons q m ih =>
    have hN2 : ((fun p => p.1) q :: m.map (fun p => p.1)).Nodup := by
      rw [← List.map_cons]
      exact hN
    rcases List.mem_cons.mp hp with rfl | hp'
    · rw [mapLookup_cons, if_pos rfl]
    · have hq : ¬ (q.1 = p.1) := by
        intro hc
        exact (List.nodup_cons.mp hN2).1
          (List.mem_map.mpr ⟨p, hp', hc.symm⟩)
      rw [mapLookup_cons, if_neg hq]
      exact ih (List.nodup_cons.mp hN2).2 hp'

theorem scoresAccum_keys (bm sem : List (String × ℚ × ℕ)) (k : ℕ)
    (hbmN : (bm.map (fun r => r.1)).Nodup)
    (hsemN : (sem.map (fun r => r.1)).Nodup) :
    (scoresAccum bm sem k).map (fun p => p.1) =
      bm.map (fun r => r.1) ++
        (sem.map (fun r => r.1)).filter
          (fun id => decide (¬ id ∈ bm.map (fun r => r.1))) := by
  unfold scoresAccum
  rw [foldUpsert_keys sem _ hsemN, foldUpsert_keys bm _ hbmN]
  have hid : (bm.map (fun r => r.1)).filter
      (fun id => decide (¬ id ∈ ([] : List (String × ScoreEntry)).map
        (fun p => p.1))) = bm.map (fun r => r.1) := by
    refine List.filter_eq_self.mpr ?_
    intro a _
    exact decide_eq_true (by simp)
  rw [hid]
  simp

theorem scoresAccum_keys_nodup (bm sem : List (String × ℚ × ℕ)) (k : ℕ)
    (hbmN : (bm.map (fun r => r.1)).Nodup)
    (hsemN : (sem.map (fun r => r.1)).Nodup) :
    ((scoresAccum bm sem k).map (fun p => p.1)).Nodup := by
  rw [scoresAccum_keys bm sem k hbmN hsemN]
  refine List.Nodup.append hbmN (hsemN.filter _) ?_
  intro a ha hafil
  rcases List.mem_filter.mp hafil with ⟨_, hpred⟩
  exact (of_decide_eq_true hpred) ha

theorem scoresAccum_lookup (bm sem : List (String × ℚ × ℕ)) (k : ℕ)
    (hbmN : (bm.map (fun r => r.1)).Nodup)
    (hsemN : (sem.map (fun r => r.1)).Nodup) (id : String) :
    mapLookup (scoresAccum bm sem k) id =
      match sem.find? (fun r => r.1 = id), bm.find? (fun r => r.1 = id) with
      | some r, some q =>
        some { bm25 := 1/((k : ℚ) + q.2.2 + 1),
               semantic := 1/((k : ℚ) + r.2.2 + 1),
               bm25_raw := q.2.1, semantic_raw := r.2.1 }
      | some r, none =>
        some { bm25 := 0, semantic := 1/((k : ℚ) + r.2.2 + 1),
               bm25_raw := 0, semantic_raw := r.2.1 }
      | none, some q =>
        some { bm25 := 1/((k : ℚ) + q.2.2 + 1), semantic := 0,
               bm25_raw := q.2.1, semantic_raw := 0 }
      | none, none => none := by
  unfold scoresAccum
  rw [foldUpsert_lookup sem _ hsemN]
  unfold lookupD
  rw [foldUpsert_lookup bm _ hbmN]
  cases hs : sem.find? (fun r => r.1 = id) <;>
    cases hb : bm.find? (fun r => r.1 = id) <;> rfl

/-- Every entry of the accumulator carries exactly the per-list RRF
contributions of its identity. -/
theorem scoresAccum_entry (bm sem : List (String × ℚ × ℕ)) (k : ℕ)
    (hbmN : (bm.map (fun r => r.1)).Nodup)
    (hsemN : (sem.map (fun r => r.1)).Nodup)
    (p : String × ScoreEntry) (hp : p ∈ scoresAccum bm sem k) :
    p.2.bm25 = contribOf bm k p.1 ∧ p.2.semantic = contribOf sem k p.1 := by
  have hL := mem_lookup_of_nodup _
    (scoresAccum_keys_nodup bm sem k hbmN hsemN) p hp
  rw [scoresAccum_lookup bm sem k hbmN hsemN p.1] at hL
  unfold contribOf
  cases hs : sem.find? (fun r => r.1 = p.1) <;>
    cases hb : bm.find? (fun r => r.1 = p.1) <;> rw [hs, hb] at hL
  · cases hL
  · rw [← Option.some.inj hL]
    exact ⟨rfl, rfl⟩
  · rw [← Option.some.inj hL]
    exact ⟨rfl, rfl⟩
  · rw [← Option.some.inj hL]
    exact ⟨rfl, rfl⟩

theorem pairwise_filterMap_of {α β : Type} (g : α → Option β)
    (R : α → α → Prop) (S : β → β → Prop)
    (h : ∀ a b x y, R a b → g a = some x → g b = some y → S x y)
    (l : List α) (hl : l.Pairwise R) : (l.filterMap g).Pairwise S := by
  induction l with
  | nil => exact List.Pairwise.nil
  | cons a l ih =>
    rcases List.pairwise_cons.mp hl with ⟨ha, htail⟩
    rw [List.filterMap_cons]
    cases hga : g a with
    | none => exact ih htail
    | some x =>
      refine List.pairwise_cons.mpr ⟨?_, ih htail⟩
      intro y hy
      rcases List.mem_filterMap.mp hy with ⟨b, hb, hgb⟩
      exact h a b x y (ha b hb) hga hgb

/-- **C2** (confirmed; floats idealized as exact rationals).  Reciprocal
rank fusion gives every output entry the combined score
`alpha * (1 / (k + semantic_rank + 1)) + (1 - alpha) * (1 / (k + lexical_rank + 1))`,
where an identity absent from one list receives contribution `0` from that
list (`contribOf`), and the output is ordered by descending combined
score.  The two ranked lists are assumed to rank each identity at most
once, as the producing searches guarantee. -/
theorem c2_rrf_combined_score_and_order (bm sem : List (String × ℚ × ℕ))
    (alpha : ℚ) (k : ℕ) (payload corpus : List (String × String))
    (hbmN : (bm.map (fun r => r.1)).Nodup)
    (hsemN : (sem.map (fun r => r.1)).Nodup)
    (f : Fused) (hf : f ∈ rrfFusion bm sem alpha k payload corpus) :
    f.score = alpha * contribOf sem k f.id +
      (1 - alpha) * contribOf bm k f.id ∧
    (rrfFusion bm sem alpha k payload corpus).Pairwise
      (fun a b => b.score ≤ a.score) := by
  constructor
  · unfold rrfFusion at hf
    rcases List.mem_filterMap.mp hf with ⟨p, hp, hres⟩
    cases htext : resolveText payload corpus p.1 with
    | none =>
      rw [htext] at hres
      cases hres
    | some text =>
      rw [htext] at hres
      have hmem : p ∈ scoresAccum bm sem k :=
        (stableSort_perm _ _).mem_iff.mp hp
      rcases scoresAccum_entry bm sem k hbmN hsemN p hmem with ⟨h1, h2⟩
      rw [← Option.some.inj hres]
      show combinedScore alpha p.2 = _
      unfold combinedScore
      rw [h1, h2]
  · unfold rrfFusion
    refine pairwise_filterMap_of _
      (fun a b => (combinedScore alpha b.2 ≤ combinedScore alpha a.2 :
        Bool) = true) _ ?_ _ ?_
    · intro a b x y hab hga hgb
      cases hta : resolveText payload corpus a.1 with
      | none => rw [hta] at hga; cases hga
      | some ta =>
        cases htb : resolveText payload corpus b.1 with
        | none => rw [htb] at hgb; cases hgb
        | some tb =>
          rw [hta] at hga
          rw [htb] at hgb
          rw [← Option.some.inj hga, ← Option.some.inj hgb]
          exact of_decide_eq_true hab
    · refine pairwise_stableSort _ ?_ ?_ _
      · intro a b
        rcases le_total (combinedScore alpha b.2) (combinedScore alpha a.2)
          with h | h
        · exact Or.inl (by simpa using h)
        · exact Or.inr (by simpa using h)
      · intro a b c hab hbc
        have h1 : combinedScore alpha b.2 ≤ combinedScore alpha a.2 := by
          simpa using hab
        have h2 : combinedScore alpha c.2 ≤ combinedScore alpha b.2 := by
          simpa using hbc
        simpa using le_trans h2 h1

/-- Witness for C2 at a pair of one-element ranked lists with `alpha = 1/2`
and `k = 60`, at the first fused entry. -/
theorem c2_rrf_combined_score_and_order_witness :
    ((⟨"a", "ta", 1/122, 1, 0⟩ : Fused).score =
      (1 : ℚ)/2 * contribOf [("b", 1, 0)] 60 "a" +
        (1 - 1/2) * contribOf [("a", 1, 0)] 60 "a" ∧
    (rrfFusion [("a", 1, 0)] [("b", 1, 0)] (1/2) 60
        [("a", "ta"), ("b", "tb")] []).Pairwise
      (fun a b => b.score ≤ a.score)) :=
  c2_rrf_combined_score_and_order [("a", 1, 0)] [("b", 1, 0)] (1/2) 60
    [("a", "ta"), ("b", "tb")] [] (by decide) (by decide)
    ⟨"a", "ta", 1/122, 1, 0⟩ (by
      norm_num [rrfFusion, scoresAccum, upsertScore, mapSet, lookupD,
        mapLookup, stableSort, stableInsert, combinedScore, resolveText,
        List.find?, List.filterMap_cons]
      simp
      refine ⟨"a", ⟨61⁻¹, 0, 1, 0⟩, Or.inl ⟨rfl, by norm_num⟩, ?_⟩
      simp
      norm_num)

/-! ### C4: fusion at the extreme alpha values -/

theorem assoc_eq_keys_map {β : Type} (d : β) (m : List (String × β))
    (hN : (m.map (fun p => p.1)).Nodup) :
    m = (m.map (fun p => p.1)).map (fun id => (id, lookupD m id d)) := by
  induction m with
  | nil => rfl
  | cons p m ih =>
    have hN2 : ((fun p => p.1) p :: m.map (fun p => p.1)).Nodup := by
      rw [← List.map_cons]
      exact hN
    rcases List.nodup_cons.mp hN2 with ⟨hp_notin, hN'⟩
    rw [List.map_cons, List.map_cons]
    have hhead : (p.1, lookupD (p :: m) p.1 d) = p := by
      unfold lookupD
      rw [mapLookup_cons, if_pos rfl]
      rfl
    rw [hhead]
    have htail : (m.map (fun p => p.1)).map
        (fun id => (id, lookupD (p :: m) id d)) =
        (m.map (fun p => p.1)).map (fun id => (id, lookupD m id d)) := by
      refine List.map_congr_left ?_
      intro id hid
      have hne : ¬ (p.1 = id) := fun hc => hp_notin (by
        show p.1 ∈ _
        rw [hc]
        exact hid)
      unfold lookupD
      rw [mapLookup_cons, if_neg hne]
    rw [htail, ← ih hN']

theorem find?_key_get (l : List (String × ℚ × ℕ))
    (hN : (l.map (fun r => r.1)).Nodup) (i : Fin l.length) :
    l.find? (fun r => r.1 = (l.get i).1) = some (l.get i) := by
  induction l with
  | nil => exact absurd i.2 (by simp)
  | cons r l ih =>
    have hN2 : ((fun r => r.1) r :: l.map (fun r => r.1)).Nodup := by
      rw [← List.map_cons]
      exact hN
    rcases List.nodup_cons.mp hN2 with ⟨hr_notin, hN'⟩
    rcases i with ⟨iv, hi⟩
    cases iv with
    | zero => exact List.find?_cons_of_pos _ (by simp)
    | succ j =>
      have hj : j < l.length := Nat.lt_of_succ_lt_succ hi
      have hget : (r :: l).get ⟨j + 1, hi⟩ = l.get ⟨j, hj⟩ := rfl
      rw [hget]
      have hmem : (l.get ⟨j, hj⟩).1 ∈ l.map (fun r => r.1) :=
        List.mem_map.mpr ⟨l.get ⟨j, hj⟩, l.get_mem _ _, rfl⟩
      have hne : ¬ (r.1 = (l.get ⟨j, hj⟩).1) := fun hc =>
        hr_notin (by
          show r.1 ∈ _
          rw [hc]
          exact hmem)
      have hstep : (r :: l).find? (fun q => q.1 = (l.get ⟨j, hj⟩).1) =
          l.find? (fun q => q.1 = (l.get ⟨j, hj⟩).1) :=
        List.find?_cons_of_neg _ (fun hc => hne (of_decide_eq_true hc))
      rw [hstep]
      exact ih hN' ⟨j, hj⟩

theorem contribOf_get (l : List (String × ℚ × ℕ)) (k : ℕ)
    (hN : (l.map (fun r => r.1)).Nodup)
    (hR : ∀ i : Fin l.length, (l.get i).2.2 = i.1) (i : Fin l.length) :
    contribOf l k (l.get i).1 = 1 / ((k : ℚ) + i.1 + 1) := by
  unfold contribOf
  rw [find?_key_get l hN i]
  show 1 / ((k : ℚ) + ((l.get i).2.2 : ℚ) + 1) = _
  rw [hR i]

theorem filterMap_eq_map_of {α β : Type} (g : α → Option β) (h' : α → β)
    (l : List α) (h : ∀ a ∈ l, g a = some (h' a)) :
    l.filterMap g = l.map h' := by
  induction l with
  | nil => rfl
  | cons a l ih =>
    rw [List.filterMap_cons, h a (List.mem_cons_self a l), List.map_cons,
      ih (fun b hb => h b (List.mem_cons_of_mem a hb))]

/-- Fields of the accumulator entry of any identity (also for identities
never ranked: the defaulted entry and zero contributions agree). -/
theorem lookupD_scoresAccum_fields (bm sem : List (String × ℚ × ℕ))
    (k : ℕ) (hbmN : (bm.map (fun r => r.1)).Nodup)
    (hsemN : (sem.map (fun r => r.1)).Nodup) (id : String) :
    (lookupD (scoresAccum bm sem k) id {}).bm25 = contribOf bm k id ∧
    (lookupD (scoresAccum bm sem k) id {}).semantic = contribOf sem k id := by
  unfold lookupD contribOf
  rw [scoresAccum_lookup bm sem k hbmN hsemN id]
  cases hs : sem.find? (fun r => r.1 = id) <;>
    cases hb : bm.find? (fun r => r.1 = id) <;> exact ⟨rfl, rfl⟩

/-- Core of C4: when every combined score coincides with the contribution
of a single "dominant" ranked list whose identities are exactly the
accumulator's, the fused output lists the dominant list's identities in
order. -/
theorem rrf_dominant (bm sem dom : List (String × ℚ × ℕ)) (alpha : ℚ)
    (k : ℕ) (payload corpus : List (String × String))
    (hbmN : (bm.map (fun r => r.1)).Nodup)
    (hsemN : (sem.map (fun r => r.1)).Nodup)
    (hdomN : (dom.map (fun r => r.1)).Nodup)
    (hdomR : ∀ i : Fin dom.length, (dom.get i).2.2 = i.1)
    (hperm : List.Perm ((scoresAccum bm sem k).map (fun p => p.1))
      (dom.map (fun r => r.1)))
    (hcomb : ∀ id : String,
      combinedScore alpha (lookupD (scoresAccum bm sem k) id {}) =
        contribOf dom k id)
    (hres : ∀ r ∈ dom, (resolveText payload corpus r.1).isSome = true) :
    (rrfFusion bm sem alpha k payload corpus).map (fun f => f.id) =
      dom.map (fun r => r.1) := by
  have haccN := scoresAccum_keys_nodup bm sem k hbmN hsemN
  set acc := scoresAccum bm sem k with hacc
  set f := fun id => (id, lookupD acc id {}) with hf
  set target := (dom.map (fun r => r.1)).map f with htarget
  -- the accumulator is its keys mapped through `f`, hence a permutation of
  -- the dominant list mapped through `f`
  have hshape : acc = (acc.map (fun p => p.1)).map f :=
    assoc_eq_keys_map {} acc haccN
  have hperm2 : List.Perm acc target := by
    rw [hshape]
    exact hperm.map f
  -- combined scores on the target are strictly decreasing
  have htargetlen : target.length = dom.length := by
    rw [htarget]
    simp
  have hcs_target : ∀ i : Fin target.length,
      combinedScore alpha (target.get i).2 =
        1 / ((k : ℚ) + i.1 + 1) := by
    intro i
    have hi2 : i.1 < dom.length := htargetlen ▸ i.2
    have hget : target.get i = f ((dom.get ⟨i.1, hi2⟩).1) := by
      show (List.map f (List.map (fun r => r.1) dom)).get i = _
      rw [List.get_map, List.get_map]
    rw [hget]
    show combinedScore alpha (lookupD acc (dom.get ⟨i.1, hi2⟩).1 {}) = _
    rw [hcomb, contribOf_get dom k hdomN hdomR ⟨i.1, hi2⟩]
  have hstrict_target : target.Pairwise
      (fun a b => combinedScore alpha b.2 < combinedScore alpha a.2) := by
    rw [List.pairwise_iff_get]
    intro i j hij
    rw [hcs_target i, hcs_target j]
    have h1 : (0 : ℚ) < (k : ℚ) + i.1 + 1 := by positivity
    rw [div_lt_div_iff (by positivity) h1]
    have : (i.1 : ℚ) < (j.1 : ℚ) := by exact_mod_cast hij
    nlinarith
  -- the stable sort is weakly sorted, and its scores are pairwise distinct
  set les := fun (a b : String × ScoreEntry) =>
    (combinedScore alpha b.2 ≤ combinedScore alpha a.2 : Bool) with hles
  have hsortperm : List.Perm (stableSort les acc) acc := stableSort_perm _ _
  have hsorted_weak : (stableSort les acc).Pairwise
      (fun a b => combinedScore alpha b.2 ≤ combinedScore alpha a.2) := by
    have h := pairwise_stableSort les
      (fun a b => by
        rcases le_total (combinedScore alpha b.2) (combinedScore alpha a.2)
          with h | h
        · exact Or.inl (by simpa [hles] using h)
        · exact Or.inr (by simpa [hles] using h))
      (fun a b c hab hbc => by
        have h1 : combinedScore alpha b.2 ≤ combinedScore alpha a.2 := by
          simpa [hles] using hab
        have h2 : combinedScore alpha c.2 ≤ combinedScore alpha b.2 := by
          simpa [hles] using hbc
        simpa [hles] using le_trans h2 h1) acc
    exact h.imp (fun hab => by simpa [hles] using hab)
  have hne : (stableSort les acc).Pairwise
      (fun a b => combinedScore alpha a.2 ≠ combinedScore alpha b.2) := by
    have hnd_t : ((target.map (fun p => combinedScore alpha p.2))).Nodup :=
      List.pairwise_map.mpr (hstrict_target.imp (fun h => ne_of_gt h))
    have hpm : List.Perm
        ((stableSort les acc).map (fun p => combinedScore alpha p.2))
        (target.map (fun p => combinedScore alpha p.2)) :=
      (hsortperm.trans hperm2).map _
    have hnd : ((stableSort les acc).map
        (fun p => combinedScore alpha p.2)).Nodup :=
      hpm.nodup_iff.mpr hnd_t
    exact List.pairwise_map.mp hnd
  have hstrict_sorted : (stableSort les acc).Pairwise
      (fun a b => combinedScore alpha b.2 < combinedScore alpha a.2) := by
    have hand := hsorted_weak.and hne
    exact hand.imp (fun h => lt_of_le_of_ne h.1 h.2.symm)
  haveI : IsAntisymm (String × ScoreEntry)
      (fun a b => combinedScore alpha b.2 < combinedScore alpha a.2) :=
    ⟨fun a b h1 h2 => ((lt_asymm h1) h2).elim⟩
  have hsorteq : stableSort les acc = target :=
    List.eq_of_perm_of_sorted (hsortperm.trans hperm2) hstrict_sorted
      hstrict_target
  show ((stableSort les acc).filterMap (fun p =>
    match resolveText payload corpus p.1 with
    | some text => some (⟨p.1, text, combinedScore alpha p.2,
        p.2.bm25_raw, p.2.semantic_raw⟩ : Fused)
    | none => none)).map (fun f => f.id) = dom.map (fun r => r.1)
  rw [hsorteq]
  rw [filterMap_eq_map_of _
    (fun p => (⟨p.1, (resolveText payload corpus p.1).getD "",
      combinedScore alpha p.2, p.2.bm25_raw, p.2.semantic_raw⟩ : Fused))
    target ?hres']
  · rw [htarget, List.map_map, List.map_map]
    simp [Function.comp]
  case hres' =>
    intro p hp
    rw [htarget] at hp
    rcases List.mem_map.mp hp with ⟨id, hid, hpid⟩
    rcases List.mem_map.mp hid with ⟨r, hr, hrid⟩
    have hpi : p.1 = r.1 := by
      rw [← hpid, ← hrid]
    have hsome := hres r hr
    cases ht : resolveText payload corpus p.1 with
    | none =>
      rw [hpi] at ht
      rw [ht] at hsome
      cases hsome
    | some t =>
      simp [ht]

/-- **C4** (counterexample to the original claim).  With `alpha = 1` an
identity ranked only by the lexical list still reaches the fused output
(its combined score is merely `0`), so the fused order is not the semantic
list's order: fusing lexical `[("a",1,0)]` with semantic `[("b",1,0)]` at
`alpha = 1` yields ids `["b", "a"]`, not `["b"]`. -/
theorem c4_extreme_alpha_counterexample :
    (rrfFusion [("a", 1, 0)] [("b", 1, 0)] 1 60
      [("a", "ta"), ("b", "tb")] []).map (fun f => f.id) ≠
      [("b", (1 : ℚ), (0 : ℕ))].map (fun r => r.1) := by
  have hL : (rrfFusion [("a", 1, 0)] [("b", 1, 0)] 1 60
      [("a", "ta"), ("b", "tb")] []).map (fun f => f.id) = ["b", "a"] := by
    norm_num [rrfFusion, scoresAccum, upsertScore, mapSet, lookupD,
      mapLookup, stableSort, stableInsert, combinedScore, resolveText,
      List.find?, List.filterMap_cons]
    simp
  rw [hL]
  decide

/-- **C4** (corrected).  When the two ranked lists cover the *same*
identity set (each ranking every identity exactly once, rank equal to
position, every identity resolvable to a text), fusion at `alpha = 1`
yields exactly the semantic order and at `alpha = 0` exactly the lexical
order; without that proviso identities ranked by only one list are
appended with combined score 0 (see the counterexample). -/
theorem c4_extreme_alpha_order (bm sem : List (String × ℚ × ℕ)) (k : ℕ)
    (payload corpus : List (String × String))
    (hbmN : (bm.map (fun r => r.1)).Nodup)
    (hsemN : (sem.map (fun r => r.1)).Nodup)
    (hbmR : ∀ i : Fin bm.length, (bm.get i).2.2 = i.1)
    (hsemR : ∀ i : Fin sem.length, (sem.get i).2.2 = i.1)
    (hids : ∀ id, id ∈ bm.map (fun r => r.1) ↔ id ∈ sem.map (fun r => r.1))
    (hresb : ∀ r ∈ bm, (resolveText payload corpus r.1).isSome = true)
    (hress : ∀ r ∈ sem, (resolveText payload corpus r.1).isSome = true) :
    (rrfFusion bm sem 1 k payload corpus).map (fun f => f.id) =
      sem.map (fun r => r.1) ∧
    (rrfFusion bm sem 0 k payload corpus).map (fun f => f.id) =
      bm.map (fun r => r.1) := by
  have hfilter : (sem.map (fun r => r.1)).filter
      (fun id => decide (¬ id ∈ bm.map (fun r => r.1))) = [] := by
    refine List.filter_eq_nil.mpr ?_
    intro a ha hc
    exact (of_decide_eq_true hc) ((hids a).mpr ha)
  have haccbm : (scoresAccum bm sem k).map (fun p => p.1) =
      bm.map (fun r => r.1) := by
    rw [scoresAccum_keys bm sem k hbmN hsemN, hfilter, List.append_nil]
  have hperm_sem : List.Perm ((scoresAccum bm sem k).map (fun p => p.1))
      (sem.map (fun r => r.1)) := by
    rw [haccbm]
    exact (List.perm_ext_iff_of_nodup hbmN hsemN).mpr hids
  have hperm_bm : List.Perm ((scoresAccum bm sem k).map (fun p => p.1))
      (bm.map (fun r => r.1)) := by
    rw [haccbm]
  have hcomb1 : ∀ id : String,
      combinedScore 1 (lookupD (scoresAccum bm sem k) id {}) =
        contribOf sem k id := by
    intro id
    rcases lookupD_scoresAccum_fields bm sem k hbmN hsemN id with ⟨_, hs⟩
    unfold combinedScore
    rw [hs]
    ring
  have hcomb0 : ∀ id : String,
      combinedScore 0 (lookupD (scoresAccum bm sem k) id {}) =
        contribOf bm k id := by
    intro id
    rcases lookupD_scoresAccum_fields bm sem k hbmN hsemN id with ⟨hb, _⟩
    unfold combinedScore
    rw [hb]
    ring
  exact ⟨rrf_dominant bm sem sem 1 k payload corpus hbmN hsemN hsemN hsemR
      hperm_sem hcomb1 hress,
    rrf_dominant bm sem bm 0 k payload corpus hbmN hsemN hbmN hbmR
      hperm_bm hcomb0 hresb⟩

/-- Witness for the corrected C4 at two two-element ranked lists over the
same identity set. -/
theorem c4_extreme_alpha_order_witness :
    (rrfFusion [("a", 1, 0), ("b", 2, 1)] [("a", 3, 0), ("b", 4, 1)] 1 60
      [("a", "ta"), ("b", "tb")] []).map (fun f => f.id) =
      [("a", (3 : ℚ), (0 : ℕ)), ("b", 4, 1)].map (fun r => r.1) ∧
    (rrfFusion [("a", 1, 0), ("b", 2, 1)] [("a", 3, 0), ("b", 4, 1)] 0 60
      [("a", "ta"), ("b", "tb")] []).map (fun f => f.id) =
      [("a", (1 : ℚ), (0 : ℕ)), ("b", 2, 1)].map (fun r => r.1) :=
  c4_extreme_alpha_order [("a", 1, 0), ("b", 2, 1)]
    [("a", 3, 0), ("b", 4, 1)] 60 [("a", "ta"), ("b", "tb")] []
    (by decide) (by decide) (by decide) (by decide)
    (fun id => Iff.rfl) (by decide) (by decide)

/-! ### C7: BM25 top-n selection -/

theorem bm25Search_some (scores : List ℚ) (ids : List String)
    (metadatas : List (List (String × String))) (top_n : ℕ)
    (whereF : Option Where) :
    bm25Search (some scores) ids metadatas top_n whereF =
      if (bm25Eligible scores metadatas whereF).isEmpty then []
      else (((stableSort (fun a b => a.2 ≤ b.2)
          (((bm25Eligible scores metadatas whereF).map
            (fun i => scores.getD i 0)).enum)).reverse).take
            top_n).enum.map
        (fun p => (ids.getD
          ((bm25Eligible scores metadatas whereF).getD p.2.1 0) "",
          p.2.2, p.1)) := rfl

/-- **C7** (counterexample to the original claim).  Two documents with
equal BM25 scores: `np.argsort` ascending is stable (`[0, 1]`), but the
`[::-1]` reversal puts the *later* document first, so ties come out in
reverse corpus order, not original corpus order. -/
theorem c7_bm25_tie_counterexample :
    bm25Search (some [1, 1]) ["a", "b"] [] 2 none =
      [("b", 1, 0), ("a", 1, 1)] ∧
    bm25Search (some [1, 1]) ["a", "b"] [] 2 none ≠
      [("a", 1, 0), ("b", 1, 1)] := by
  constructor
  · decide
  · decide

/-- **C7** (corrected).  `_bm25_search` returns `[]` when the index is
`None` and when the eligible set is empty, never an error; otherwise it
returns the top `top_n` eligible documents by descending BM25 score as
`(id, score, rank)` with rank equal to position in that order — but ties
between equal-scored documents come out in *reverse* eligible (corpus)
order, because `np.argsort(...)[::-1]` reverses the stable ascending
order (see the counterexample).  `srt` is the unique strictly-descending
reordering of the eligible `(local index, score)` pairs with ties by
descending local index. -/
theorem c7_bm25_top_n (scores : List ℚ) (ids : List String)
    (metadatas : List (List (String × String))) (top_n : ℕ)
    (whereF : Option Where) (srt : List (ℕ × ℚ))
    (hperm : List.Perm srt
      (((bm25Eligible scores metadatas whereF).map
        (fun i => scores.getD i 0)).enum))
    (hsorted : srt.Pairwise
      (fun p q => q.2 < p.2 ∨ (q.2 = p.2 ∧ q.1 < p.1))) :
    bm25Search none ids metadatas top_n whereF = [] ∧
    (bm25Eligible scores metadatas whereF = [] →
      bm25Search (some scores) ids metadatas top_n whereF = []) ∧
    (bm25Eligible scores metadatas whereF ≠ [] →
      bm25Search (some scores) ids metadatas top_n whereF =
        (srt.take top_n).enum.map (fun p =>
          (ids.getD ((bm25Eligible scores metadatas whereF).getD p.2.1 0)
            "", p.2.2, p.1))) := by
  refine ⟨rfl, ?_, ?_⟩
  · intro hemp
    rw [bm25Search_some, hemp]
    rfl
  · intro hne
    have hnemp : ¬ ((bm25Eligible scores metadatas whereF).isEmpty =
        true) := by
      intro hc
      exact hne (List.isEmpty_iff.mp hc)
    rw [bm25Search_some, if_neg hnemp]
    have h1 : ((((bm25Eligible scores metadatas whereF).map
        (fun i => scores.getD i 0)).enum)).Pairwise
        (fun p q : ℕ × ℚ => p.2 = q.2 → p.1 < q.1) := by
      refine List.Pairwise.imp ?_ (pairwise_fst_lt_enum
        ((bm25Eligible scores metadatas whereF).map
          (fun i => scores.getD i 0)))
      intro a b h _
      exact h
    have hsort := pairwise_lex_stableSort _ h1
    have hrev : ((stableSort (fun a b => a.2 ≤ b.2)
        (((bm25Eligible scores metadatas whereF).map
          (fun i => scores.getD i 0)).enum)).reverse).Pairwise
        (fun p q => lexAsc q p) := List.pairwise_reverse.mpr hsort
    have hp1 : List.Perm (stableSort (fun a b => a.2 ≤ b.2)
        (((bm25Eligible scores metadatas whereF).map
          (fun i => scores.getD i 0)).enum)).reverse srt :=
      ((List.reverse_perm _).trans (stableSort_perm _ _)).trans hperm.symm
    haveI : IsAntisymm (ℕ × ℚ) (fun p q => lexAsc q p) := by
      refine ⟨?_⟩
      intro a b h1 h2
      exfalso
      have h1a : b.2 < a.2 ∨ (b.2 = a.2 ∧ b.1 < a.1) := h1
      have h2a : a.2 < b.2 ∨ (a.2 = b.2 ∧ a.1 < b.1) := h2
      rcases h1a with h1a | h1a <;> rcases h2a with h2a | h2a
      · exact lt_asymm h1a h2a
      · rw [h2a.1] at h1a
        exact lt_irrefl _ h1a
      · rw [h1a.1] at h2a
        exact lt_irrefl _ h2a
      · exact lt_asymm h1a.2 h2a.2
    have heq := List.eq_of_perm_of_sorted hp1 hrev hsorted
    rw [heq]

/-- Witness for the corrected C7 at `scores = [1, 2]`, no filter,
`top_n = 2`, with the sorted pair list `[(1, 2), (0, 1)]`. -/
theorem c7_bm25_top_n_witness :
    bm25Search none ["a", "b"] [] 2 none = [] ∧
    (bm25Eligible [1, 2] [] none = [] →
      bm25Search (some [1, 2]) ["a", "b"] [] 2 none = []) ∧
    (bm25Eligible [1, 2] [] none ≠ [] →
      bm25Search (some [1, 2]) ["a", "b"] [] 2 none =
        (([((1 : ℕ), (2 : ℚ)), (0, 1)].take 2).enum.map (fun p =>
          (["a", "b"].getD ((bm25Eligible [1, 2] [] none).getD p.2.1 0)
            "", p.2.2, p.1)))) :=
  c7_bm25_top_n [1, 2] ["a", "b"] [] 2 none [(1, 2), (0, 1)]
    (by decide) (by decide)

end ObsidianMCP
